import Mathlib

/-!
# LunarDB cache

A shallow embedding of class `Cache` of `src/cache.h` and `src/cache.cpp` (the entry
type, the scalar operations, the sweep, the eviction and the list operations), followed
by theorems about it.

Modelling conventions.

* `std::unordered_map<std::string, CacheEntry>` is an association list in iteration
  order.  The C++ standard leaves the iteration order unspecified; the model keeps an
  overwritten key in place and puts a new key at the end.  The map invariant (keys are
  unique) is the predicate `Cache.WF`; every operation preserves it.
* `std::chrono::steady_clock::time_point` is its tick count, an `Int` of nanoseconds
  (the period of `steady_clock` in libstdc++, libc++ and MSVC).  Every operation that
  reads `steady_clock::now()` takes the reading as an argument.  Signed overflow of the
  tick count is undefined behaviour in C++ and is not modelled.
* `int ttl_seconds` is an `Int`; theorems quantified over all `Int` cover the 32-bit range.
* The anonymous union of `CacheEntry` together with its tag `is_list` is the sum type
  `Payload`.
* `data.erase(data.end())` is undefined behaviour: operations that can reach it return
  `Option`, with `none` for the undefined case.  The same holds for `lrange`, whose
  iterator pair need not be a valid range.
* The `int` arithmetic of `lrange` is integer arithmetic: with a list size that fits in
  `int` none of its operations overflows.
-/

namespace LunarDB

/-- Duration of `std::chrono::seconds(n)` in ticks of the steady clock (nanoseconds). -/
def seconds (n : Int) : Int := n * 1000000000

/-- The active member of the union in `CacheEntry`: `string_value` when `is_list` is
false, `list_value` when it is true. -/
inductive Payload where
  | string_value (s : String)
  | list_value (l : List String)
  deriving DecidableEq

/-- Struct `Cache::CacheEntry` of `cache.h`. -/
structure CacheEntry where
  payload : Payload
  expiry : Int
  has_expiry : Bool
  deriving DecidableEq

/-- Tag `is_list` of a `CacheEntry`. -/
def CacheEntry.is_list (e : CacheEntry) : Bool :=
  match e.payload with
  | .string_value _ => false
  | .list_value _ => true

/-- Constructor `CacheEntry()`: an empty string, no expiry marker, and the
value-initialised `time_point` (the clock epoch, tick 0). -/
def CacheEntry.init : CacheEntry :=
  { payload := .string_value "", expiry := 0, has_expiry := false }

/-- The map type of member `data`, in iteration order. -/
abbrev Table := List (String × CacheEntry)

/-- Lookup `data.find(key)`: the entry stored under `key`, `none` for `data.end()`. -/
def find : Table → String → Option CacheEntry
  | [], _ => none
  | (k, e) :: rest, key => if k = key then some e else find rest key

/-- Removal `data.erase(key)` and `data.erase(it)` for an iterator to the element with
key `key`: the remaining elements keep their order. -/
def erase (data : Table) (key : String) : Table :=
  data.filter (fun p => decide (p.1 ≠ key))

/-- Assignment `data[key] = entry`: overwrite in place when `key` is present, insert a
new element otherwise. -/
def assign : Table → String → CacheEntry → Table
  | [], key, entry => [(key, entry)]
  | (k, e) :: rest, key, entry =>
    if k = key then (key, entry) :: rest else (k, e) :: assign rest key entry

/-- Loop of `std::min_element` after its first step: `smallest` is replaced by the
current element exactly when the comparator `a.second.expiry < b.second.expiry` holds
for (current, smallest). -/
def min_element_from (smallest : String × CacheEntry) : Table → String × CacheEntry
  | [] => smallest
  | x :: rest =>
    if x.2.expiry < smallest.2.expiry then min_element_from x rest
    else min_element_from smallest rest

/-- Call `std::min_element(data.begin(), data.end(), cmp)` with the comparator of
`evict_if_needed`; `none` is the end iterator returned for an empty range. -/
def min_element : Table → Option (String × CacheEntry)
  | [] => none
  | x :: rest => some (min_element_from x rest)

/-- Class `Cache`: the map `data` and the bound `max_size`. -/
structure Cache where
  data : Table
  max_size : Nat
  deriving DecidableEq

namespace Cache

/-- Constructor `Cache::Cache(size_t max_size)`. -/
def empty (max_size : Nat) : Cache := { data := [], max_size := max_size }

/-- Map invariant of `std::unordered_map`: no key occurs twice. -/
def WF (c : Cache) : Prop := (c.data.map Prod.fst).Nodup

instance (c : Cache) : Decidable c.WF := by
  unfold WF; infer_instance

/-- Method `Cache::size`. -/
def size (c : Cache) : Nat := c.data.length

/-- Method `Cache::keys`. -/
def keys (c : Cache) : List String := c.data.map Prod.fst

/-- Method `Cache::evict_if_needed`.  The result is `none` when `min_element` returns
the end iterator, which `data.erase` must not be given. -/
def evict_if_needed (c : Cache) : Option Cache :=
  if c.data.length ≥ c.max_size then
    match min_element c.data with
    | none => none
    | some oldest => some { c with data := erase c.data oldest.1 }
  else some c

/-- The entry built by `Cache::set` from `value`, `ttl_seconds` and the clock reading. -/
def scalar_entry (value : String) (ttl_seconds : Int) (now : Int) : CacheEntry :=
  { payload := .string_value value
    has_expiry := decide (ttl_seconds > 0)
    expiry := now + seconds ttl_seconds }

/-- Method `Cache::set`; `now` is the value of `steady_clock::now()` it reads. -/
def set (c : Cache) (key value : String) (ttl_seconds : Int) (now : Int) : Option Cache :=
  match c.evict_if_needed with
  | none => none
  | some c1 => some { c1 with data := assign c1.data key (scalar_entry value ttl_seconds now) }

/-- Method `Cache::get`; `now` is the value of `steady_clock::now()` it reads.  The
method is `const`: it returns a string and leaves the store as it is. -/
def get (c : Cache) (key : String) (now : Int) : String :=
  match find c.data key with
  | some e =>
    if !e.has_expiry || decide (e.expiry > now) then
      match e.payload with
      | .list_value _ => ""
      | .string_value s => s
    else ""
  | none => ""

/-- Method `Cache::del`: the returned flag is `data.erase(key) > 0`, the number of
elements erased being the drop in size. -/
def del (c : Cache) (key : String) : Bool × Cache :=
  (decide (c.data.length - (erase c.data key).length > 0), { c with data := erase c.data key })

/-- Method `Cache::clear`. -/
def clear (c : Cache) : Cache := { c with data := [] }

/-- Method `Cache::mset`: `set` with the default `ttl_seconds = 0` on each pair in
order; `now i` is the clock reading of the call for the pair at position `i`. -/
def mset (c : Cache) : List (String × String) → (Nat → Int) → Option Cache
  | [], _ => some c
  | kv :: rest, now =>
    match c.set kv.1 kv.2 0 (now 0) with
    | none => none
    | some c1 => mset c1 rest (fun i => now (i + 1))

/-- Method `Cache::mget`: `get` on each key in order; `now i` is the clock reading of
the call for the key at position `i`. -/
def mget (c : Cache) : List String → (Nat → Int) → List String
  | [], _ => []
  | key :: rest, now => c.get key (now 0) :: mget c rest (fun i => now (i + 1))

/-- Method `Cache::cleanup_expired`; `now` is the clock reading taken at its start.
The loop erases an element exactly when `has_expiry && expiry <= now`. -/
def cleanup_expired (c : Cache) (now : Int) : Cache :=
  { c with data := c.data.filter (fun p => !(p.2.has_expiry && decide (p.2.expiry ≤ now))) }

/-- The fresh list entry built by `lpush` and `rpush`: a default-constructed
`CacheEntry` (expiry at tick 0) turned into the one-element list. -/
def list_entry (value : String) : CacheEntry :=
  { CacheEntry.init with payload := .list_value [value], has_expiry := false }

/-- Method `Cache::lpush`. -/
def lpush (c : Cache) (key value : String) : Cache :=
  match find c.data key with
  | some ⟨.list_value l, ex, he⟩ =>
    { c with data := assign c.data key ⟨.list_value (value :: l), ex, he⟩ }
  | _ => { c with data := assign c.data key (list_entry value) }

/-- Method `Cache::rpush`. -/
def rpush (c : Cache) (key value : String) : Cache :=
  match find c.data key with
  | some ⟨.list_value l, ex, he⟩ =>
    { c with data := assign c.data key ⟨.list_value (l ++ [value]), ex, he⟩ }
  | _ => { c with data := assign c.data key (list_entry value) }

/-- Whether the run of `mset c kvs now` performs no eviction: before each of its `set`
calls the size is below `max_size`, so that `evict_if_needed` erases nothing. -/
def mset_no_eviction (c : Cache) : List (String × String) → (Nat → Int) → Bool
  | [], _ => true
  | kv :: rest, now =>
    decide (c.data.length < c.max_size) &&
      (match c.set kv.1 kv.2 0 (now 0) with
       | none => false
       | some c1 => mset_no_eviction c1 rest (fun i => now (i + 1)))

/-- A sequence of `set` calls made by a caller, one after the other; each element is
(key, value, ttl_seconds, clock reading of the call). -/
def set_each (c : Cache) : List (String × String × Int × Int) → Option Cache
  | [] => some c
  | (k, v, ttl, now) :: rest =>
    match c.set k v ttl now with
    | none => none
    | some c1 => set_each c1 rest

/-- Method `Cache::lpop`: the returned string and the store it leaves. -/
def lpop (c : Cache) (key : String) : String × Cache :=
  match find c.data key with
  | some ⟨.list_value (value :: rest), ex, he⟩ =>
    if rest.isEmpty then (value, { c with data := erase c.data key })
    else (value, { c with data := assign c.data key ⟨.list_value rest, ex, he⟩ })
  | _ => ("", c)

/-- Method `Cache::rpop`: the returned string and the store it leaves. -/
def rpop (c : Cache) (key : String) : String × Cache :=
  match find c.data key with
  | some ⟨.list_value list, ex, he⟩ =>
    match list.getLast? with
    | some value =>
      if list.dropLast.isEmpty then (value, { c with data := erase c.data key })
      else (value, { c with data := assign c.data key ⟨.list_value list.dropLast, ex, he⟩ })
    | none => ("", c)
  | _ => ("", c)

/-- The copy `result.insert(result.end(), it_start, it_stop)` of `lrange`, where
`it_start = std::next(list.begin(), first)` and `it_stop = std::next(list.begin(), last)`.
Advancing is defined up to `list.end()` only (`last ≤ list.size()`), and the iterator
pair is a valid range only when `it_stop` is reachable from `it_start` (`first ≤ last`);
anything else is undefined behaviour, `none`. -/
def copy_range (list : List String) (first last : Nat) : Option (List String) :=
  if first ≤ last ∧ last ≤ list.length then some ((list.drop first).take (last - first))
  else none

/-- Method `Cache::lrange`.  The `int` values are integers; the list size is taken to
fit in `int`, so that the `static_cast` keeps it.  The result is `none` when the
iterator arithmetic or the copied range is undefined. -/
def lrange (c : Cache) (key : String) (start stop : Int) : Option (List String) :=
  match find c.data key with
  | some ⟨.list_value list, _, _⟩ =>
    let size : Int := list.length
    let start1 := if start < 0 then size + start else start
    let stop1 := if stop < 0 then size + stop else stop
    let start2 := max 0 (min start1 (size - 1))
    let stop2 := max 0 (min stop1 (size - 1))
    copy_range list start2.toNat (stop2 + 1).toNat
  | _ => some []

/-- Method `Cache::llen`. -/
def llen (c : Cache) (key : String) : Nat :=
  match find c.data key with
  | some ⟨.list_value list, _, _⟩ => list.length
  | _ => 0

/-- A call of one of the mutating public methods, with its arguments and the clock
readings it takes. -/
inductive Op where
  | set (key value : String) (ttl_seconds now : Int)
  | del (key : String)
  | clear
  | mset (kvs : List (String × String)) (now : Nat → Int)
  | cleanup_expired (now : Int)
  | lpush (key value : String)
  | rpush (key value : String)
  | lpop (key : String)
  | rpop (key : String)

/-- The store left by one call; `none` when the call is undefined. -/
def step (c : Cache) : Op → Option Cache
  | .set key value ttl_seconds now => c.set key value ttl_seconds now
  | .del key => some (c.del key).2
  | .clear => some c.clear
  | .mset kvs now => c.mset kvs now
  | .cleanup_expired now => some (c.cleanup_expired now)
  | .lpush key value => some (c.lpush key value)
  | .rpush key value => some (c.rpush key value)
  | .lpop key => some (c.lpop key).2
  | .rpop key => some (c.rpop key).2

/-- The store left by a sequence of calls, one after the other. -/
def run (c : Cache) : List Op → Option Cache
  | [] => some c
  | op :: rest =>
    match c.step op with
    | none => none
    | some c1 => run c1 rest

/-- A store that a sequence of public calls produces from a freshly constructed one. -/
def Reachable (c : Cache) : Prop :=
  ∃ (max_size : Nat) (ops : List Op), run (Cache.empty max_size) ops = some c

/-- The calls `rpush(key, x)` for each `x` of `values`, in order. -/
def rpush_each (c : Cache) (key : String) : List String → Cache
  | [] => c
  | x :: rest => rpush_each (c.rpush key x) key rest

/-- The strings returned by `n` successive calls `lpop(key)`, in order, and the store
they leave. -/
def lpop_n (c : Cache) (key : String) : Nat → List String × Cache
  | 0 => ([], c)
  | n + 1 =>
    let r := lpop_n (c.lpop key).2 key n
    ((c.lpop key).1 :: r.1, r.2)

/-- The strings returned by `n` successive calls `rpop(key)`, in order, and the store
they leave. -/
def rpop_n (c : Cache) (key : String) : Nat → List String × Cache
  | 0 => ([], c)
  | n + 1 =>
    let r := rpop_n (c.rpop key).2 key n
    ((c.rpop key).1 :: r.1, r.2)


/-- Index of a slice as the specification words it, for a list of `size` elements:
a negative index has `size` added to it, and the outcome is clamped into
`[0, size - 1]`. -/
def slice_index (size : Nat) (i : Int) : Nat :=
  let j := if i < 0 then i + size else i
  if j < 0 then 0 else if j > (size : Int) - 1 then size - 1 else j.toNat


/-- Invariant of the stores the public methods produce: the keys are unique, and every
List entry is non-empty, carries no expiry marker and has its expiry instant at the
clock epoch. -/
def Inv (c : Cache) : Prop :=
  c.WF ∧ ∀ p ∈ c.data, ∀ l, p.2.payload = .list_value l →
    l ≠ [] ∧ p.2.has_expiry = false ∧ p.2.expiry = 0


end Cache

/-! ## Lemmas on the map operations -/

theorem find_assign_self (d : Table) (k : String) (e : CacheEntry) :
    find (assign d k e) k = some e := by
  induction d with
  | nil => simp [assign, find]
  | cons p rest ih =>
    obtain ⟨k0, e0⟩ := p
    by_cases h : k0 = k
    · simp [assign, find, h]
    · simp [assign, find, h, ih]

theorem find_assign_ne (d : Table) (k k1 : String) (e : CacheEntry) (hne : k1 ≠ k) :
    find (assign d k e) k1 = find d k1 := by
  induction d with
  | nil => simp [assign, find, hne.symm]
  | cons p rest ih =>
    obtain ⟨k0, e0⟩ := p
    by_cases h : k0 = k
    · subst h
      simp [assign, find, hne.symm]
    · simp [assign, find, h, ih]

theorem find_eq_none_iff (d : Table) (k : String) :
    find d k = none ↔ k ∉ d.map Prod.fst := by
  induction d with
  | nil => simp [find]
  | cons p rest ih =>
    obtain ⟨k0, e0⟩ := p
    by_cases h : k0 = k
    · simp [find, h]
    · have h1 : ¬ k = k0 := fun hk => h hk.symm
      simp [find, h, h1, ih]

theorem find_mem (d : Table) (k : String) (e : CacheEntry) (h : find d k = some e) :
    (k, e) ∈ d := by
  induction d with
  | nil => simp [find] at h
  | cons p rest ih =>
    obtain ⟨k0, e0⟩ := p
    by_cases hk : k0 = k
    · simp [find, hk] at h
      simp [hk, h]
    · simp [find, hk] at h
      exact List.mem_cons_of_mem _ (ih h)

theorem mem_find (d : Table) (k : String) (e : CacheEntry)
    (hnd : (d.map Prod.fst).Nodup) (h : (k, e) ∈ d) : find d k = some e := by
  induction d with
  | nil => simp at h
  | cons p rest ih =>
    obtain ⟨k0, e0⟩ := p
    simp only [List.map_cons, List.nodup_cons] at hnd
    rcases List.mem_cons.1 h with heq | hmem
    · cases heq
      simp [find]
    · have hk : k0 ≠ k := by
        intro hk
        subst hk
        exact hnd.1 (List.mem_map.2 ⟨(k0, e), hmem, rfl⟩)
      simp [find, hk, ih hnd.2 hmem]

theorem find_eq_some_iff (d : Table) (k : String) (e : CacheEntry)
    (hnd : (d.map Prod.fst).Nodup) : find d k = some e ↔ (k, e) ∈ d :=
  ⟨find_mem d k e, mem_find d k e hnd⟩

theorem keys_assign (d : Table) (k : String) (e : CacheEntry) :
    (assign d k e).map Prod.fst =
      if k ∈ d.map Prod.fst then d.map Prod.fst else d.map Prod.fst ++ [k] := by
  induction d with
  | nil => simp [assign]
  | cons p rest ih =>
    obtain ⟨k0, e0⟩ := p
    by_cases h : k0 = k
    · simp [assign, h]
    · have h1 : ¬ k = k0 := fun hk => h hk.symm
      simp only [assign, h, if_false, List.map_cons, ih, List.mem_cons, h1, false_or]
      split <;> simp

theorem length_assign (d : Table) (k : String) (e : CacheEntry) :
    (assign d k e).length =
      if k ∈ d.map Prod.fst then d.length else d.length + 1 := by
  have h := congrArg List.length (keys_assign d k e)
  rw [List.length_map] at h
  rw [h]
  split <;> simp

theorem nodup_assign (d : Table) (k : String) (e : CacheEntry)
    (hnd : (d.map Prod.fst).Nodup) : ((assign d k e).map Prod.fst).Nodup := by
  rw [keys_assign]
  split
  · exact hnd
  · rename_i hk
    rw [List.nodup_append]
    refine ⟨hnd, List.nodup_singleton k, ?_⟩
    intro a ha hb
    simp at hb
    subst hb
    exact hk ha

theorem mem_keys_assign (d : Table) (k k1 : String) (e : CacheEntry) :
    k1 ∈ (assign d k e).map Prod.fst ↔ k1 = k ∨ k1 ∈ d.map Prod.fst := by
  rw [keys_assign]
  split
  · rename_i hk
    constructor
    · exact fun h => Or.inr h
    · rintro (h | h)
      · subst h; exact hk
      · exact h
  · simp [or_comm]

theorem find_filter (d : Table) (q : String × CacheEntry → Bool) (k : String)
    (hnd : (d.map Prod.fst).Nodup) :
    find (d.filter q) k =
      match find d k with
      | some e => if q (k, e) then some e else none
      | none => none := by
  induction d with
  | nil => simp [find]
  | cons p rest ih =>
    obtain ⟨k0, e0⟩ := p
    simp only [List.map_cons, List.nodup_cons] at hnd
    by_cases hk : k0 = k
    · subst hk
      have hnone : find rest k0 = none := (find_eq_none_iff rest k0).2 hnd.1
      by_cases hq : q (k0, e0) = true
      · simp [List.filter_cons, hq, find]
      · have := ih hnd.2
        rw [hnone] at this
        simp [List.filter_cons, hq, find, this]
    · by_cases hq : q (k0, e0) = true
      · simp [List.filter_cons, hq, find, hk, ih hnd.2]
      · simp [List.filter_cons, hq, find, hk, ih hnd.2]

theorem nodup_filter (d : Table) (q : String × CacheEntry → Bool)
    (hnd : (d.map Prod.fst).Nodup) : ((d.filter q).map Prod.fst).Nodup :=
  ((List.filter_sublist d).map Prod.fst).nodup hnd

theorem nodup_erase (d : Table) (k : String) (hnd : (d.map Prod.fst).Nodup) :
    ((erase d k).map Prod.fst).Nodup :=
  nodup_filter d _ hnd

theorem mem_erase (d : Table) (k : String) (p : String × CacheEntry) :
    p ∈ erase d k ↔ p ∈ d ∧ p.1 ≠ k := by
  simp [erase, List.mem_filter]

theorem mem_keys_erase (d : Table) (k k1 : String) :
    k1 ∈ (erase d k).map Prod.fst ↔ k1 ∈ d.map Prod.fst ∧ k1 ≠ k := by
  simp only [List.mem_map, mem_erase]
  constructor
  · rintro ⟨p, ⟨hp, hne⟩, rfl⟩
    exact ⟨⟨p, hp, rfl⟩, hne⟩
  · rintro ⟨⟨p, hp, rfl⟩, hne⟩
    exact ⟨p, ⟨hp, hne⟩, rfl⟩

theorem find_erase_self (d : Table) (k : String) : find (erase d k) k = none := by
  rw [find_eq_none_iff, mem_keys_erase]
  exact fun h => h.2 rfl

theorem erase_cons (k0 : String) (e0 : CacheEntry) (rest : Table) (k : String) :
    erase ((k0, e0) :: rest) k =
      if k0 = k then erase rest k else (k0, e0) :: erase rest k := by
  by_cases hk : k0 = k <;> simp [erase, List.filter_cons, hk]

theorem find_erase_ne (d : Table) (k k1 : String) (hne : k1 ≠ k) :
    find (erase d k) k1 = find d k1 := by
  induction d with
  | nil => simp [erase, find]
  | cons p rest ih =>
    obtain ⟨k0, e0⟩ := p
    rw [erase_cons]
    by_cases hk : k0 = k
    · have h1 : ¬ k0 = k1 := fun h => hne (h.symm.trans hk)
      rw [if_pos hk, ih]
      simp [find, h1]
    · rw [if_neg hk]
      by_cases h1 : k0 = k1
      · simp [find, h1]
      · simp [find, h1, ih]

theorem erase_of_not_mem (d : Table) (k : String) (h : k ∉ d.map Prod.fst) :
    erase d k = d := by
  unfold erase
  rw [List.filter_eq_self]
  intro p hp
  have : p.1 ≠ k := by
    intro hk
    exact h (List.mem_map.2 ⟨p, hp, hk⟩)
  simpa using this

theorem length_erase_of_mem (d : Table) (k : String) (hnd : (d.map Prod.fst).Nodup)
    (h : k ∈ d.map Prod.fst) : (erase d k).length + 1 = d.length := by
  induction d with
  | nil => simp at h
  | cons p rest ih =>
    obtain ⟨k0, e0⟩ := p
    simp only [List.map_cons, List.nodup_cons] at hnd
    rw [erase_cons]
    by_cases hk : k0 = k
    · subst hk
      rw [if_pos rfl, erase_of_not_mem rest k0 hnd.1]
      rfl
    · have hmem : k ∈ rest.map Prod.fst := by
        simp only [List.map_cons, List.mem_cons] at h
        rcases h with h | h
        · exact absurd h.symm hk
        · exact h
      rw [if_neg hk, List.length_cons, ih hnd.2 hmem]
      rfl

theorem min_element_from_mem (s : String × CacheEntry) (l : Table) :
    min_element_from s l ∈ s :: l := by
  induction l generalizing s with
  | nil => simp [min_element_from]
  | cons x rest ih =>
    unfold min_element_from
    split
    · exact List.mem_cons_of_mem _ (ih x)
    · rcases List.mem_cons.1 (ih s) with h | h
      · rw [h]; exact List.mem_cons_self _ _
      · exact List.mem_cons_of_mem _ (List.mem_cons_of_mem _ h)

theorem min_element_from_le (s : String × CacheEntry) (l : Table) :
    (min_element_from s l).2.expiry ≤ s.2.expiry ∧
      ∀ p ∈ l, (min_element_from s l).2.expiry ≤ p.2.expiry := by
  induction l generalizing s with
  | nil => simp [min_element_from]
  | cons x rest ih =>
    unfold min_element_from
    split
    · rename_i hlt
      obtain ⟨h1, h2⟩ := ih x
      refine ⟨by omega, ?_⟩
      intro p hp
      rcases List.mem_cons.1 hp with h | h
      · rw [h]; exact h1
      · exact h2 p h
    · rename_i hlt
      obtain ⟨h1, h2⟩ := ih s
      refine ⟨h1, ?_⟩
      intro p hp
      rcases List.mem_cons.1 hp with h | h
      · rw [h]; omega
      · exact h2 p h

theorem min_element_spec (d : Table) (hne : d ≠ []) :
    ∃ oldest, min_element d = some oldest ∧ oldest ∈ d ∧
      ∀ p ∈ d, oldest.2.expiry ≤ p.2.expiry := by
  cases d with
  | nil => exact absurd rfl hne
  | cons x rest =>
    refine ⟨min_element_from x rest, rfl, min_element_from_mem x rest, ?_⟩
    intro p hp
    obtain ⟨h1, h2⟩ := min_element_from_le x rest
    rcases List.mem_cons.1 hp with h | h
    · rw [h]; exact h1
    · exact h2 p h

theorem mem_keys_of_find (d : Table) (k : String) (e : CacheEntry)
    (h : find d k = some e) : k ∈ d.map Prod.fst :=
  List.mem_map.2 ⟨(k, e), find_mem d k e h, rfl⟩

theorem mem_assign (d : Table) (k : String) (e : CacheEntry) (p : String × CacheEntry)
    (h : p ∈ assign d k e) : p = (k, e) ∨ p ∈ d := by
  induction d with
  | nil => simpa [assign] using h
  | cons q rest ih =>
    obtain ⟨k0, e0⟩ := q
    by_cases hk : k0 = k
    · simp only [assign, hk, if_true, List.mem_cons] at h
      rcases h with h | h
      · exact Or.inl h
      · exact Or.inr (List.mem_cons_of_mem _ h)
    · simp only [assign, hk, if_false, List.mem_cons] at h
      rcases h with h | h
      · exact Or.inr (by rw [h]; exact List.mem_cons_self _ _)
      · rcases ih h with h1 | h1
        · exact Or.inl h1
        · exact Or.inr (List.mem_cons_of_mem _ h1)

theorem length_assign_of_find (d : Table) (k : String) (e e0 : CacheEntry)
    (h : find d k = some e0) : (assign d k e).length = d.length := by
  rw [length_assign, if_pos (mem_keys_of_find d k e0 h)]

theorem length_assign_of_not_mem (d : Table) (k : String) (e : CacheEntry)
    (h : k ∉ d.map Prod.fst) : (assign d k e).length = d.length + 1 := by
  rw [length_assign, if_neg h]


/-! ## Lemmas on the cache operations -/

namespace Cache

theorem wf_empty (n : Nat) : (Cache.empty n).WF := by
  simp [Cache.empty, WF]

theorem evict_if_needed_room (c : Cache) (h : c.data.length < c.max_size) :
    c.evict_if_needed = some c := by
  unfold evict_if_needed
  rw [if_neg (by omega)]

theorem evict_if_needed_full (c : Cache) (hfull : c.max_size ≤ c.data.length)
    (hne : c.data ≠ []) :
    ∃ oldest, oldest ∈ c.data ∧ (∀ p ∈ c.data, oldest.2.expiry ≤ p.2.expiry) ∧
      c.evict_if_needed = some { c with data := erase c.data oldest.1 } := by
  obtain ⟨oldest, hmin, hmem, hle⟩ := min_element_spec c.data hne
  refine ⟨oldest, hmem, hle, ?_⟩
  unfold evict_if_needed
  rw [if_pos hfull, hmin]

theorem data_ne_nil_of_full (c : Cache) (hcap : 1 ≤ c.max_size)
    (hfull : c.max_size ≤ c.data.length) : c.data ≠ [] := by
  intro h
  rw [h] at hfull
  simp at hfull
  omega

theorem evict_if_needed_some (c : Cache) (hcap : 1 ≤ c.max_size) :
    ∃ c1, c.evict_if_needed = some c1 := by
  by_cases hfull : c.max_size ≤ c.data.length
  · obtain ⟨oldest, _, _, h⟩ :=
      evict_if_needed_full c hfull (data_ne_nil_of_full c hcap hfull)
    exact ⟨_, h⟩
  · exact ⟨c, evict_if_needed_room c (by omega)⟩

theorem evict_if_needed_data (c c1 : Cache) (h : c.evict_if_needed = some c1) :
    c1.max_size = c.max_size ∧
      (c1.data = c.data ∨ ∃ oldest, oldest ∈ c.data ∧ c1.data = erase c.data oldest.1) := by
  unfold evict_if_needed at h
  split at h
  · cases hmin : min_element c.data with
    | none => rw [hmin] at h; simp at h
    | some oldest =>
      rw [hmin] at h
      simp only [Option.some.injEq] at h
      subst h
      refine ⟨rfl, Or.inr ⟨oldest, ?_, rfl⟩⟩
      cases hd : c.data with
      | nil => rw [hd] at hmin; simp [min_element] at hmin
      | cons x rest =>
        rw [hd] at hmin
        simp only [min_element, Option.some.injEq] at hmin
        rw [← hmin]
        exact min_element_from_mem x rest
  · simp only [Option.some.injEq] at h
    subst h
    exact ⟨rfl, Or.inl rfl⟩

theorem evict_if_needed_wf (c c1 : Cache) (hwf : c.WF) (h : c.evict_if_needed = some c1) :
    c1.WF := by
  obtain ⟨_, hd | ⟨oldest, _, hd⟩⟩ := evict_if_needed_data c c1 h
  · unfold WF; rw [hd]; exact hwf
  · unfold WF; rw [hd]; exact nodup_erase c.data oldest.1 hwf

theorem set_eq (c c1 : Cache) (k v : String) (ttl now : Int)
    (h : c.evict_if_needed = some c1) :
    c.set k v ttl now = some { c1 with data := assign c1.data k (scalar_entry v ttl now) } := by
  unfold set
  rw [h]

theorem set_some (c : Cache) (k v : String) (ttl now : Int) (hcap : 1 ≤ c.max_size) :
    ∃ c1, c.evict_if_needed = some c1 ∧
      c.set k v ttl now = some { c1 with data := assign c1.data k (scalar_entry v ttl now) } := by
  obtain ⟨c1, h⟩ := evict_if_needed_some c hcap
  exact ⟨c1, h, set_eq c c1 k v ttl now h⟩

theorem set_inv (c c2 : Cache) (k v : String) (ttl now : Int)
    (h : c.set k v ttl now = some c2) :
    ∃ c1, c.evict_if_needed = some c1 ∧
      c2 = { c1 with data := assign c1.data k (scalar_entry v ttl now) } := by
  unfold set at h
  cases he : c.evict_if_needed with
  | none => rw [he] at h; simp at h
  | some c1 =>
    rw [he] at h
    simp only [Option.some.injEq] at h
    exact ⟨c1, rfl, h.symm⟩

theorem set_wf (c c2 : Cache) (k v : String) (ttl now : Int) (hwf : c.WF)
    (h : c.set k v ttl now = some c2) : c2.WF := by
  obtain ⟨c1, he, rfl⟩ := set_inv c c2 k v ttl now h
  exact nodup_assign c1.data k _ (evict_if_needed_wf c c1 hwf he)

theorem get_scalar (c : Cache) (k v : String) (ex now : Int) (he : Bool)
    (h : find c.data k = some ⟨.string_value v, ex, he⟩) :
    c.get k now = if !he || decide (ex > now) then v else "" := by
  unfold get
  rw [h]

theorem del_wf (c : Cache) (k : String) (hwf : c.WF) : (c.del k).2.WF :=
  nodup_erase c.data k hwf

theorem clear_wf (c : Cache) : c.clear.WF := by
  simp [clear, WF]

theorem cleanup_expired_wf (c : Cache) (now : Int) (hwf : c.WF) :
    (c.cleanup_expired now).WF :=
  nodup_filter c.data _ hwf

theorem lpush_wf (c : Cache) (k v : String) (hwf : c.WF) : (c.lpush k v).WF := by
  unfold lpush
  split <;> exact nodup_assign c.data k _ hwf

theorem rpush_wf (c : Cache) (k v : String) (hwf : c.WF) : (c.rpush k v).WF := by
  unfold rpush
  split <;> exact nodup_assign c.data k _ hwf

theorem set_room (c : Cache) (k v : String) (ttl now : Int)
    (h : c.data.length < c.max_size) :
    c.set k v ttl now = some { c with data := assign c.data k (scalar_entry v ttl now) } :=
  set_eq c c k v ttl now (evict_if_needed_room c h)

theorem get_assign_ne (c : Cache) (k k1 : String) (e : CacheEntry) (now : Int)
    (hne : k1 ≠ k) :
    ({ c with data := assign c.data k e } : Cache).get k1 now = c.get k1 now := by
  simp [get, find_assign_ne c.data k k1 e hne]

theorem get_assign_scalar_zero (c : Cache) (k v : String) (t now : Int) :
    ({ c with data := assign c.data k (scalar_entry v 0 t) } : Cache).get k now = v := by
  have hfind : find (assign c.data k (scalar_entry v 0 t)) k
      = some ⟨.string_value v, t + seconds 0, decide ((0 : Int) > 0)⟩ :=
    find_assign_self c.data k _
  rw [get_scalar _ k v _ now _ hfind]
  simp

theorem mset_cons_room (c : Cache) (kv : String × String) (rest : List (String × String))
    (now : Nat → Int) (h : mset_no_eviction c (kv :: rest) now = true) :
    c.data.length < c.max_size ∧
    mset_no_eviction { c with data := assign c.data kv.1 (scalar_entry kv.2 0 (now 0)) }
      rest (fun i => now (i + 1)) = true ∧
    c.mset (kv :: rest) now =
      mset { c with data := assign c.data kv.1 (scalar_entry kv.2 0 (now 0)) }
        rest (fun i => now (i + 1)) := by
  unfold mset_no_eviction at h
  rw [Bool.and_eq_true, decide_eq_true_eq] at h
  obtain ⟨hroom, hrest⟩ := h
  have hset := set_room c kv.1 kv.2 0 (now 0) hroom
  rw [hset] at hrest
  refine ⟨hroom, hrest, ?_⟩
  rw [mset, hset]

theorem mset_some (c : Cache) (kvs : List (String × String)) (now : Nat → Int)
    (h : mset_no_eviction c kvs now = true) : ∃ c', c.mset kvs now = some c' := by
  induction kvs generalizing c now with
  | nil => exact ⟨c, rfl⟩
  | cons kv rest ih =>
    obtain ⟨_, hrest, heq⟩ := mset_cons_room c kv rest now h
    rw [heq]
    exact ih _ _ hrest

theorem mset_get_frame (c c' : Cache) (kvs : List (String × String)) (now : Nat → Int)
    (h : mset_no_eviction c kvs now = true) (hm : c.mset kvs now = some c')
    (k : String) (hk : k ∉ kvs.map Prod.fst) (t : Int) : c'.get k t = c.get k t := by
  induction kvs generalizing c now with
  | nil =>
    simp only [mset, Option.some.injEq] at hm
    rw [hm]
  | cons kv rest ih =>
    obtain ⟨_, hrest, heq⟩ := mset_cons_room c kv rest now h
    rw [heq] at hm
    simp only [List.map_cons, List.mem_cons, not_or] at hk
    rw [ih _ _ hrest hm hk.2]
    exact get_assign_ne c kv.1 k _ t hk.1

theorem mset_get_last (c c' : Cache) (kvs : List (String × String)) (now : Nat → Int)
    (h : mset_no_eviction c kvs now = true) (hm : c.mset kvs now = some c')
    (j : Nat) (hj : j < kvs.length)
    (hlast : ∀ j1 (hj1 : j1 < kvs.length), j < j1 → kvs[j1].1 ≠ kvs[j].1) (t : Int) :
    c'.get kvs[j].1 t = kvs[j].2 := by
  induction kvs generalizing c now j with
  | nil => simp at hj
  | cons kv rest ih =>
    obtain ⟨_, hrest, heq⟩ := mset_cons_room c kv rest now h
    rw [heq] at hm
    cases j with
    | zero =>
      simp only [List.getElem_cons_zero] at hlast ⊢
      have hk : kv.1 ∉ rest.map Prod.fst := by
        intro hmem
        obtain ⟨i, hi, hget⟩ := List.getElem_of_mem hmem
        rw [List.length_map] at hi
        have := hlast (i + 1) (by simp; omega) (by omega)
        simp only [List.getElem_cons_succ] at this
        rw [List.getElem_map] at hget
        exact this hget
      rw [mset_get_frame _ c' rest _ hrest hm kv.1 hk t]
      exact get_assign_scalar_zero c kv.1 kv.2 (now 0) t
    | succ j0 =>
      simp only [List.getElem_cons_succ]
      have hj0 : j0 < rest.length := by simpa using hj
      refine ih _ _ hrest hm j0 hj0 ?_
      intro j1 hj1 hlt
      have := hlast (j1 + 1) (by simp; omega) (by omega)
      simpa using this

theorem mget_getElem? (c : Cache) (keys : List String) (now : Nat → Int) (i : Nat) :
    (c.mget keys now)[i]? = keys[i]?.map (fun k => c.get k (now i)) := by
  induction keys generalizing now i with
  | nil => simp [mget]
  | cons key rest ih =>
    cases i with
    | zero => simp [mget]
    | succ i0 => simp [mget, ih]

theorem mget_length (c : Cache) (keys : List String) (now : Nat → Int) :
    (c.mget keys now).length = keys.length := by
  induction keys generalizing now with
  | nil => simp [mget]
  | cons key rest ih => simp [mget, ih]

theorem find_cleanup_expired_iff (c : Cache) (now : Int) (hwf : c.WF) :
    ∀ k e, find (c.cleanup_expired now).data k = some e ↔
      (find c.data k = some e ∧ ¬ (e.has_expiry = true ∧ e.expiry ≤ now)) := by
  intro k e
  simp only [cleanup_expired]
  rw [find_filter _ _ k hwf]
  cases hf : find c.data k with
  | none => simp
  | some e0 =>
    by_cases hq : e0.has_expiry = true ∧ e0.expiry ≤ now
    · simp [hq.1, hq.2]
      intro h
      subst h
      exact hq
    · have hq' : (!(e0.has_expiry && decide (e0.expiry ≤ now))) = true := by
        cases hh : e0.has_expiry
        · simp
        · have hgt : ¬ e0.expiry ≤ now := fun hle => hq ⟨hh, hle⟩
          simp [hgt]
      simp only [hq', if_true, Option.some.injEq]
      constructor
      · intro h; subst h; exact ⟨rfl, hq⟩
      · exact fun h => h.1

theorem cleanup_expired_twice (c : Cache) (now : Int) :
    (c.cleanup_expired now).cleanup_expired now = c.cleanup_expired now := by
  simp only [cleanup_expired, List.filter_filter, Bool.and_self]

theorem set_size_le (c c2 : Cache) (k v : String) (ttl now : Int) (hwf : c.WF)
    (h : c.set k v ttl now = some c2) :
    c2.max_size = c.max_size ∧ c2.size ≤ max c.size c.max_size := by
  obtain ⟨c1, he, rfl⟩ := set_inv c c2 k v ttl now h
  obtain ⟨hmax, hd⟩ := evict_if_needed_data c c1 he
  refine ⟨hmax, ?_⟩
  have hlen := length_assign c1.data k (scalar_entry v ttl now)
  simp only [size]
  by_cases hfull : c.max_size ≤ c.data.length
  · have hshrink : c1.data.length + 1 ≤ c.data.length := by
      unfold evict_if_needed at he
      rw [if_pos hfull] at he
      cases hmin : min_element c.data with
      | none => rw [hmin] at he; simp at he
      | some oldest =>
        rw [hmin] at he
        simp only [Option.some.injEq] at he
        subst he
        have hmem : oldest ∈ c.data := by
          cases hdd : c.data with
          | nil => rw [hdd] at hmin; simp [min_element] at hmin
          | cons x rest =>
            rw [hdd] at hmin
            simp only [min_element, Option.some.injEq] at hmin
            rw [← hmin]
            exact min_element_from_mem x rest
        have := length_erase_of_mem c.data oldest.1 hwf (List.mem_map.2 ⟨oldest, hmem, rfl⟩)
        simp only
        omega
    split at hlen <;> omega
  · have hsame : c1 = c := by
      have := evict_if_needed_room c (by omega)
      rw [this] at he
      simp only [Option.some.injEq] at he
      exact he.symm
    subst hsame
    split at hlen <;> omega

theorem set_each_bounded (c : Cache) (ops : List (String × String × Int × Int))
    (hwf : c.WF) (hcap : 1 ≤ c.max_size) (hsize : c.size ≤ c.max_size) :
    ∃ c2, c.set_each ops = some c2 ∧ c2.WF ∧ c2.max_size = c.max_size ∧
      c2.size ≤ c.max_size := by
  induction ops generalizing c with
  | nil => exact ⟨c, rfl, hwf, rfl, hsize⟩
  | cons op rest ih =>
    obtain ⟨k, v, ttl, now⟩ := op
    obtain ⟨c1, _, hset⟩ := set_some c k v ttl now hcap
    obtain ⟨hmax, hle⟩ := set_size_le c _ k v ttl now hwf hset
    have hwf1 := set_wf c _ k v ttl now hwf hset
    have hsize1 : Cache.size { c1 with data := assign c1.data k (scalar_entry v ttl now) }
        ≤ c.max_size := by
      have : max c.size c.max_size = c.max_size := max_eq_right hsize
      omega
    obtain ⟨c2, h2, hwf2, hmax2, hsize2⟩ := ih _ hwf1 (by rw [hmax]; exact hcap)
      (by rw [hmax]; exact hsize1)
    refine ⟨c2, ?_, hwf2, by rw [hmax2, hmax], by rw [← hmax]; exact hsize2⟩
    simp only [set_each, hset]
    exact h2

theorem lpop_single (c : Cache) (k x : String) (ex : Int) (he : Bool)
    (h : find c.data k = some ⟨.list_value [x], ex, he⟩) :
    c.lpop k = (x, { c with data := erase c.data k }) := by
  unfold lpop
  rw [h]
  simp

theorem lpop_more (c : Cache) (k x y : String) (r : List String) (ex : Int) (he : Bool)
    (h : find c.data k = some ⟨.list_value (x :: y :: r), ex, he⟩) :
    c.lpop k = (x, { c with data := assign c.data k ⟨.list_value (y :: r), ex, he⟩ }) := by
  unfold lpop
  rw [h]
  simp

theorem rpop_single (c : Cache) (k x : String) (ex : Int) (he : Bool)
    (h : find c.data k = some ⟨.list_value [x], ex, he⟩) :
    c.rpop k = (x, { c with data := erase c.data k }) := by
  unfold rpop
  rw [h]
  simp

theorem rpop_more (c : Cache) (k x : String) (l : List String) (ex : Int) (he : Bool)
    (hl : l ≠ []) (h : find c.data k = some ⟨.list_value (l ++ [x]), ex, he⟩) :
    c.rpop k = (x, { c with data := assign c.data k ⟨.list_value l, ex, he⟩ }) := by
  unfold rpop
  rw [h]
  simp [hl]

theorem lpop_of_not_list (c : Cache) (k : String)
    (h : find c.data k = none ∨ ∃ s ex he, find c.data k = some ⟨.string_value s, ex, he⟩) :
    c.lpop k = ("", c) := by
  unfold lpop
  rcases h with h | ⟨s, ex, he, h⟩ <;> rw [h]

theorem rpop_of_not_list (c : Cache) (k : String)
    (h : find c.data k = none ∨ ∃ s ex he, find c.data k = some ⟨.string_value s, ex, he⟩) :
    c.rpop k = ("", c) := by
  unfold rpop
  rcases h with h | ⟨s, ex, he, h⟩ <;> rw [h]

theorem llen_of_list (c : Cache) (k : String) (l : List String) (ex : Int) (he : Bool)
    (h : find c.data k = some ⟨.list_value l, ex, he⟩) : c.llen k = l.length := by
  unfold llen
  rw [h]

theorem llen_of_not_list (c : Cache) (k : String)
    (h : find c.data k = none ∨ ∃ s ex he, find c.data k = some ⟨.string_value s, ex, he⟩) :
    c.llen k = 0 := by
  unfold llen
  rcases h with h | ⟨s, ex, he, h⟩ <;> rw [h]

theorem lrange_of_not_list (c : Cache) (k : String) (start stop : Int)
    (h : find c.data k = none ∨ ∃ s ex he, find c.data k = some ⟨.string_value s, ex, he⟩) :
    c.lrange k start stop = some [] := by
  unfold lrange
  rcases h with h | ⟨s, ex, he, h⟩ <;> rw [h]

theorem get_of_find_none (c : Cache) (k : String) (now : Int) (h : find c.data k = none) :
    c.get k now = "" := by
  unfold get
  rw [h]

theorem get_of_list (c : Cache) (k : String) (l : List String) (ex now : Int) (he : Bool)
    (h : find c.data k = some ⟨.list_value l, ex, he⟩) : c.get k now = "" := by
  unfold get
  rw [h]
  simp

theorem rpush_of_list (c : Cache) (k v : String) (l : List String) (ex : Int) (he : Bool)
    (h : find c.data k = some ⟨.list_value l, ex, he⟩) :
    c.rpush k v = { c with data := assign c.data k ⟨.list_value (l ++ [v]), ex, he⟩ } := by
  unfold rpush
  rw [h]

theorem lpush_of_list (c : Cache) (k v : String) (l : List String) (ex : Int) (he : Bool)
    (h : find c.data k = some ⟨.list_value l, ex, he⟩) :
    c.lpush k v = { c with data := assign c.data k ⟨.list_value (v :: l), ex, he⟩ } := by
  unfold lpush
  rw [h]

theorem rpush_of_not_list (c : Cache) (k v : String)
    (h : find c.data k = none ∨ ∃ s ex he, find c.data k = some ⟨.string_value s, ex, he⟩) :
    c.rpush k v = { c with data := assign c.data k (list_entry v) } := by
  unfold rpush
  rcases h with h | ⟨s, ex, he, h⟩ <;> rw [h]

theorem lpush_of_not_list (c : Cache) (k v : String)
    (h : find c.data k = none ∨ ∃ s ex he, find c.data k = some ⟨.string_value s, ex, he⟩) :
    c.lpush k v = { c with data := assign c.data k (list_entry v) } := by
  unfold lpush
  rcases h with h | ⟨s, ex, he, h⟩ <;> rw [h]

theorem find_cases (d : Table) (k : String) :
    (find d k = none ∨ ∃ s ex he, find d k = some ⟨.string_value s, ex, he⟩) ∨
      ∃ l ex he, find d k = some ⟨.list_value l, ex, he⟩ := by
  cases h : find d k with
  | none => exact Or.inl (Or.inl rfl)
  | some e =>
    obtain ⟨payload, ex, he⟩ := e
    cases payload with
    | string_value s => exact Or.inl (Or.inr ⟨s, ex, he, rfl⟩)
    | list_value l => exact Or.inr ⟨l, ex, he, rfl⟩


theorem lpop_n_spec (k : String) (ex : Int) (he : Bool) (i : Nat) :
    ∀ (c : Cache) (l : List String), c.WF →
      find c.data k = some ⟨.list_value l, ex, he⟩ → i ≤ l.length →
      (c.lpop_n k i).1 = l.take i ∧
      (c.lpop_n k i).2.llen k = l.length - i ∧
      (i = l.length → l ≠ [] →
        find (c.lpop_n k i).2.data k = none ∧ (c.lpop_n k i).2.size + 1 = c.size) := by
  induction i with
  | zero =>
    intro c l _ hf _
    refine ⟨by simp [lpop_n], ?_, ?_⟩
    · simpa [lpop_n] using llen_of_list c k l ex he hf
    · intro h0 hne
      exact absurd (List.length_eq_zero.1 h0.symm) hne
  | succ i ih =>
    intro c l hwf hf hi
    cases l with
    | nil => simp at hi
    | cons x rest =>
      cases rest with
      | nil =>
        have hi0 : i = 0 := by simpa using hi
        subst hi0
        have hpop := lpop_single c k x ex he hf
        have hnone : find (erase c.data k) k = none := find_erase_self c.data k
        simp only [lpop_n, hpop]
        refine ⟨by simp, ?_, ?_⟩
        · rw [llen_of_not_list _ k (Or.inl hnone)]
          rfl
        · intro _ _
          exact ⟨hnone, length_erase_of_mem c.data k hwf (mem_keys_of_find _ _ _ hf)⟩
      | cons y r =>
        have hpop := lpop_more c k x y r ex he hf
        have hf1 : find (assign c.data k ⟨.list_value (y :: r), ex, he⟩) k
            = some ⟨.list_value (y :: r), ex, he⟩ := find_assign_self c.data k _
        have hwf1 : Cache.WF { c with data := assign c.data k ⟨.list_value (y :: r), ex, he⟩ } :=
          nodup_assign c.data k _ hwf
        have hi1 : i ≤ (y :: r).length := by simpa using hi
        obtain ⟨h1, h2, h3⟩ := ih _ (y :: r) hwf1 hf1 hi1
        simp only [lpop_n, hpop]
        refine ⟨by rw [h1]; rfl, ?_, ?_⟩
        · rw [h2]
          simp
        · intro hlen _
          have hlen1 : i = (y :: r).length := by simpa using hlen
          obtain ⟨h4, h5⟩ := h3 hlen1 (List.cons_ne_nil y r)
          refine ⟨h4, ?_⟩
          rw [h5]
          exact length_assign_of_find c.data k _ _ hf

theorem rpop_n_spec (k : String) (ex : Int) (he : Bool) (i : Nat) :
    ∀ (c : Cache) (l : List String), c.WF →
      find c.data k = some ⟨.list_value l, ex, he⟩ → i ≤ l.length →
      (c.rpop_n k i).1 = l.reverse.take i ∧
      (c.rpop_n k i).2.llen k = l.length - i ∧
      (i = l.length → l ≠ [] →
        find (c.rpop_n k i).2.data k = none ∧ (c.rpop_n k i).2.size + 1 = c.size) := by
  induction i with
  | zero =>
    intro c l _ hf _
    refine ⟨by simp [rpop_n], ?_, ?_⟩
    · simpa [rpop_n] using llen_of_list c k l ex he hf
    · intro h0 hne
      exact absurd (List.length_eq_zero.1 h0.symm) hne
  | succ i ih =>
    intro c l hwf hf hi
    rcases List.eq_nil_or_concat l with hl | ⟨l0, x, hl⟩
    · subst hl
      simp at hi
    · rw [List.concat_eq_append] at hl
      subst hl
      cases l0 with
      | nil =>
        have hi0 : i = 0 := by simpa using hi
        subst hi0
        have hpop := rpop_single c k x ex he hf
        have hnone : find (erase c.data k) k = none := find_erase_self c.data k
        simp only [rpop_n, hpop]
        refine ⟨by simp, ?_, ?_⟩
        · rw [llen_of_not_list _ k (Or.inl hnone)]
          rfl
        · intro _ _
          exact ⟨hnone, length_erase_of_mem c.data k hwf (mem_keys_of_find _ _ _ hf)⟩
      | cons y r =>
        have hpop := rpop_more c k x (y :: r) ex he (List.cons_ne_nil y r) hf
        have hf1 : find (assign c.data k ⟨.list_value (y :: r), ex, he⟩) k
            = some ⟨.list_value (y :: r), ex, he⟩ := find_assign_self c.data k _
        have hwf1 : Cache.WF { c with data := assign c.data k ⟨.list_value (y :: r), ex, he⟩ } :=
          nodup_assign c.data k _ hwf
        have hi1 : i ≤ (y :: r).length := by simpa using hi
        obtain ⟨h1, h2, h3⟩ := ih _ (y :: r) hwf1 hf1 hi1
        simp only [rpop_n, hpop]
        refine ⟨?_, ?_, ?_⟩
        · rw [h1]
          simp
        · rw [h2]
          simp
        · intro hlen _
          have hlen1 : i = (y :: r).length := by simpa using hlen
          obtain ⟨h4, h5⟩ := h3 hlen1 (List.cons_ne_nil y r)
          refine ⟨h4, ?_⟩
          rw [h5]
          exact length_assign_of_find c.data k _ _ hf

theorem rpush_each_of_list (k : String) (ex : Int) (he : Bool) (vs : List String) :
    ∀ (c : Cache) (l : List String), c.WF →
      find c.data k = some ⟨.list_value l, ex, he⟩ →
      (c.rpush_each k vs).WF ∧
      find (c.rpush_each k vs).data k = some ⟨.list_value (l ++ vs), ex, he⟩ ∧
      (c.rpush_each k vs).size = c.size := by
  induction vs with
  | nil =>
    intro c l hwf hf
    exact ⟨hwf, by simpa [rpush_each] using hf, rfl⟩
  | cons x rest ih =>
    intro c l hwf hf
    have hpush := rpush_of_list c k x l ex he hf
    have hf1 : find (assign c.data k ⟨.list_value (l ++ [x]), ex, he⟩) k
        = some ⟨.list_value (l ++ [x]), ex, he⟩ := find_assign_self c.data k _
    have hwf1 : Cache.WF { c with data := assign c.data k ⟨.list_value (l ++ [x]), ex, he⟩ } :=
      nodup_assign c.data k _ hwf
    obtain ⟨h1, h2, h3⟩ := ih _ (l ++ [x]) hwf1 hf1
    simp only [rpush_each, hpush]
    refine ⟨h1, ?_, ?_⟩
    · rw [h2]
      simp
    · rw [h3]
      exact length_assign_of_find c.data k _ _ hf

theorem lrange_of_list (c : Cache) (k : String) (l : List String) (ex : Int) (he : Bool)
    (start stop : Int) (h : find c.data k = some ⟨.list_value l, ex, he⟩) :
    c.lrange k start stop =
      copy_range l
        (max 0 (min (if start < 0 then (l.length : Int) + start else start)
          ((l.length : Int) - 1))).toNat
        (max 0 (min (if stop < 0 then (l.length : Int) + stop else stop)
          ((l.length : Int) - 1)) + 1).toNat := by
  unfold lrange
  rw [h]


theorem lrange_eq_copy_range (c : Cache) (k : String) (l : List String) (ex : Int)
    (he : Bool) (start stop : Int) (h : find c.data k = some ⟨.list_value l, ex, he⟩)
    (hne : l ≠ []) :
    c.lrange k start stop =
      copy_range l (slice_index l.length start) (slice_index l.length stop + 1) ∧
    slice_index l.length start < l.length ∧ slice_index l.length stop < l.length := by
  have hpos : 1 ≤ l.length := List.length_pos.2 hne
  have hs : (max 0 (min (if start < 0 then (l.length : Int) + start else start)
      ((l.length : Int) - 1))).toNat = slice_index l.length start := by
    simp only [slice_index]
    split_ifs <;> omega
  have he1 : (max 0 (min (if stop < 0 then (l.length : Int) + stop else stop)
      ((l.length : Int) - 1)) + 1).toNat = slice_index l.length stop + 1 := by
    simp only [slice_index]
    split_ifs <;> omega
  refine ⟨?_, ?_, ?_⟩
  · rw [lrange_of_list c k l ex he start stop h, hs, he1]
  · simp only [slice_index]
    split_ifs <;> omega
  · simp only [slice_index]
    split_ifs <;> omega


theorem inv_empty (n : Nat) : (Cache.empty n).Inv :=
  ⟨wf_empty n, by simp [Cache.empty]⟩

theorem inv_of_subset (c c1 : Cache) (h : c.Inv) (hwf : c1.WF)
    (hsub : ∀ p ∈ c1.data, p ∈ c.data) : c1.Inv :=
  ⟨hwf, fun p hp l hl => h.2 p (hsub p hp) l hl⟩

theorem inv_assign (c : Cache) (k : String) (e : CacheEntry) (h : c.Inv)
    (he : ∀ l, e.payload = .list_value l → l ≠ [] ∧ e.has_expiry = false ∧ e.expiry = 0) :
    Cache.Inv { c with data := assign c.data k e } := by
  refine ⟨nodup_assign c.data k e h.1, ?_⟩
  intro p hp l hl
  rcases mem_assign c.data k e p hp with hp1 | hp1
  · subst hp1
    exact he l hl
  · exact h.2 p hp1 l hl

theorem inv_erase (c : Cache) (k : String) (h : c.Inv) :
    Cache.Inv { c with data := erase c.data k } :=
  inv_of_subset c _ h (nodup_erase c.data k h.1) (fun p hp => ((mem_erase c.data k p).1 hp).1)

theorem inv_find_list (c : Cache) (k : String) (l : List String) (ex : Int) (he : Bool)
    (h : c.Inv) (hf : find c.data k = some ⟨.list_value l, ex, he⟩) :
    l ≠ [] ∧ he = false ∧ ex = 0 :=
  h.2 (k, ⟨.list_value l, ex, he⟩) (find_mem c.data k _ hf) l rfl

theorem set_preserves_inv (c c2 : Cache) (k v : String) (ttl now : Int) (h : c.Inv)
    (hset : c.set k v ttl now = some c2) : c2.Inv := by
  obtain ⟨c1, he, rfl⟩ := set_inv c c2 k v ttl now hset
  have h1 : c1.Inv := by
    obtain ⟨_, hd | ⟨oldest, _, hd⟩⟩ := evict_if_needed_data c c1 he
    · exact inv_of_subset c c1 h (evict_if_needed_wf c c1 h.1 he) (by rw [hd]; exact fun p hp => hp)
    · refine inv_of_subset c c1 h (evict_if_needed_wf c c1 h.1 he) ?_
      rw [hd]
      exact fun p hp => ((mem_erase c.data _ p).1 hp).1
  refine inv_assign c1 k _ h1 ?_
  intro l hl
  simp [scalar_entry] at hl

theorem mset_preserves_inv (kvs : List (String × String)) :
    ∀ (c c2 : Cache) (now : Nat → Int), c.Inv → c.mset kvs now = some c2 → c2.Inv := by
  induction kvs with
  | nil =>
    intro c c2 now h hm
    simp only [mset, Option.some.injEq] at hm
    rw [← hm]
    exact h
  | cons kv rest ih =>
    intro c c2 now h hm
    cases hs : c.set kv.1 kv.2 0 (now 0) with
    | none => simp [mset, hs] at hm
    | some c1 =>
      simp only [mset, hs] at hm
      exact ih c1 c2 _ (set_preserves_inv c c1 _ _ _ _ h hs) hm

theorem lpush_preserves_inv (c : Cache) (k v : String) (h : c.Inv) : (c.lpush k v).Inv := by
  rcases find_cases c.data k with hn | ⟨l, ex, he, hf⟩
  · rw [lpush_of_not_list c k v hn]
    refine inv_assign c k _ h ?_
    intro l hl
    simp only [list_entry, Payload.list_value.injEq] at hl
    subst hl
    exact ⟨List.cons_ne_nil _ _, rfl, rfl⟩
  · rw [lpush_of_list c k v l ex he hf]
    obtain ⟨_, h2, h3⟩ := inv_find_list c k l ex he h hf
    refine inv_assign c k _ h ?_
    intro l1 hl
    simp only [Payload.list_value.injEq] at hl
    subst hl
    exact ⟨List.cons_ne_nil _ _, h2, h3⟩

theorem rpush_preserves_inv (c : Cache) (k v : String) (h : c.Inv) : (c.rpush k v).Inv := by
  rcases find_cases c.data k with hn | ⟨l, ex, he, hf⟩
  · rw [rpush_of_not_list c k v hn]
    refine inv_assign c k _ h ?_
    intro l hl
    simp only [list_entry, Payload.list_value.injEq] at hl
    subst hl
    exact ⟨List.cons_ne_nil _ _, rfl, rfl⟩
  · rw [rpush_of_list c k v l ex he hf]
    obtain ⟨_, h2, h3⟩ := inv_find_list c k l ex he h hf
    refine inv_assign c k _ h ?_
    intro l1 hl
    simp only [Payload.list_value.injEq] at hl
    subst hl
    exact ⟨by simp, h2, h3⟩

theorem lpop_preserves_inv (c : Cache) (k : String) (h : c.Inv) : (c.lpop k).2.Inv := by
  rcases find_cases c.data k with hn | ⟨l, ex, he, hf⟩
  · rw [lpop_of_not_list c k hn]
    exact h
  · obtain ⟨h1, h2, h3⟩ := inv_find_list c k l ex he h hf
    cases l with
    | nil => exact absurd rfl h1
    | cons x rest =>
      cases rest with
      | nil =>
        rw [lpop_single c k x ex he hf]
        exact inv_erase c k h
      | cons y r =>
        rw [lpop_more c k x y r ex he hf]
        refine inv_assign c k _ h ?_
        intro l1 hl
        simp only [Payload.list_value.injEq] at hl
        subst hl
        exact ⟨List.cons_ne_nil _ _, h2, h3⟩

theorem rpop_preserves_inv (c : Cache) (k : String) (h : c.Inv) : (c.rpop k).2.Inv := by
  rcases find_cases c.data k with hn | ⟨l, ex, he, hf⟩
  · rw [rpop_of_not_list c k hn]
    exact h
  · obtain ⟨h1, h2, h3⟩ := inv_find_list c k l ex he h hf
    rcases List.eq_nil_or_concat l with hl | ⟨l0, x, hl⟩
    · exact absurd hl h1
    · rw [List.concat_eq_append] at hl
      subst hl
      cases l0 with
      | nil =>
        rw [rpop_single c k x ex he hf]
        exact inv_erase c k h
      | cons y r =>
        rw [rpop_more c k x (y :: r) ex he (List.cons_ne_nil y r) hf]
        refine inv_assign c k _ h ?_
        intro l1 hl
        simp only [Payload.list_value.injEq] at hl
        subst hl
        exact ⟨List.cons_ne_nil _ _, h2, h3⟩

theorem step_preserves_inv (c c2 : Cache) (op : Op) (h : c.Inv)
    (hs : c.step op = some c2) : c2.Inv := by
  cases op with
  | set key value ttl now => exact set_preserves_inv c c2 key value ttl now h hs
  | del key =>
    simp only [step, Option.some.injEq] at hs
    rw [← hs]
    exact inv_erase c key h
  | clear =>
    simp only [step, Option.some.injEq] at hs
    rw [← hs]
    exact ⟨clear_wf c, by simp [clear]⟩
  | mset kvs now => exact mset_preserves_inv kvs c c2 now h hs
  | cleanup_expired now =>
    simp only [step, Option.some.injEq] at hs
    rw [← hs]
    exact inv_of_subset c _ h (cleanup_expired_wf c now h.1)
      (fun p hp => (List.mem_filter.1 hp).1)
  | lpush key value =>
    simp only [step, Option.some.injEq] at hs
    rw [← hs]
    exact lpush_preserves_inv c key value h
  | rpush key value =>
    simp only [step, Option.some.injEq] at hs
    rw [← hs]
    exact rpush_preserves_inv c key value h
  | lpop key =>
    simp only [step, Option.some.injEq] at hs
    rw [← hs]
    exact lpop_preserves_inv c key h
  | rpop key =>
    simp only [step, Option.some.injEq] at hs
    rw [← hs]
    exact rpop_preserves_inv c key h

theorem run_preserves_inv (ops : List Op) :
    ∀ (c c2 : Cache), c.Inv → c.run ops = some c2 → c2.Inv := by
  induction ops with
  | nil =>
    intro c c2 h hr
    simp only [run, Option.some.injEq] at hr
    rw [← hr]
    exact h
  | cons op rest ih =>
    intro c c2 h hr
    cases hs : c.step op with
    | none => simp [run, hs] at hr
    | some c1 =>
      simp only [run, hs] at hr
      exact ih c1 c2 (step_preserves_inv c c1 op h hs) hr

theorem reachable_inv (c : Cache) (h : c.Reachable) : c.Inv := by
  obtain ⟨n, ops, hr⟩ := h
  exact run_preserves_inv ops _ c (inv_empty n) hr


theorem is_list_iff (e : CacheEntry) : e.is_list = true ↔ ∃ l, e.payload = .list_value l := by
  obtain ⟨payload, ex, he⟩ := e
  cases payload <;> simp [CacheEntry.is_list]

theorem find_cleanup_expired (c : Cache) (now : Int) (k : String) (hwf : c.WF) :
    find (c.cleanup_expired now).data k =
      match find c.data k with
      | some e => if e.has_expiry = true ∧ e.expiry ≤ now then none else some e
      | none => none := by
  simp only [cleanup_expired]
  rw [find_filter _ _ k hwf]
  cases find c.data k with
  | none => rfl
  | some e =>
    by_cases hq : e.has_expiry = true ∧ e.expiry ≤ now
    · simp [hq.1, hq.2]
    · simp only [if_neg hq]
      cases hh : e.has_expiry
      · simp
      · have hgt : ¬ e.expiry ≤ now := fun hle => hq ⟨hh, hle⟩
        simp [hgt]

theorem get_cleanup_expired (c : Cache) (now : Int) (k : String) (hwf : c.WF) :
    (c.cleanup_expired now).get k now = c.get k now := by
  unfold get
  rw [find_cleanup_expired c now k hwf]
  cases find c.data k with
  | none => rfl
  | some e =>
    by_cases hq : e.has_expiry = true ∧ e.expiry ≤ now
    · have hgt : ¬ e.expiry > now := by omega
      simp [hq.1, hq.2, hgt]
    · simp only [if_neg hq]

theorem find_cleanup_expired_of_inv (c : Cache) (now : Int) (k : String) (h : c.Inv) :
    (find (c.cleanup_expired now).data k = find c.data k) ∨
      (find (c.cleanup_expired now).data k = none ∧
        ∃ s ex he, find c.data k = some ⟨.string_value s, ex, he⟩) := by
  rw [find_cleanup_expired c now k h.1]
  rcases find_cases c.data k with (hn | ⟨s, ex, he, hf⟩) | ⟨l, ex, he, hf⟩
  · rw [hn]
    exact Or.inl rfl
  · rw [hf]
    by_cases hq : he = true ∧ ex ≤ now
    · exact Or.inr ⟨by simp [hq.1, hq.2], s, ex, he, rfl⟩
    · exact Or.inl (by simp only [if_neg hq])
  · rw [hf]
    obtain ⟨_, h2, _⟩ := inv_find_list c k l ex he h hf
    subst h2
    exact Or.inl (by simp)

theorem llen_congr (c c1 : Cache) (k : String) (h : find c1.data k = find c.data k) :
    c1.llen k = c.llen k := by
  unfold llen
  rw [h]

theorem lrange_congr (c c1 : Cache) (k : String) (start stop : Int)
    (h : find c1.data k = find c.data k) : c1.lrange k start stop = c.lrange k start stop := by
  unfold lrange
  rw [h]


end Cache

/-! ## The claims -/

namespace Cache

/-- C1 (set/get round trip): on a store with capacity at least 1, `set(k, v, ttl)`
performed at instant `t` succeeds, and a `get(k)` evaluated at an instant `t'` with
`t ≤ t'` returns `v` whenever `ttl ≤ 0` or `t'` is before `t` plus `ttl` seconds. -/
theorem set_get_round_trip (c : Cache) (k v : String) (ttl t t' : Int)
    (hwf : c.WF) (hcap : 1 ≤ c.max_size) (_htime : t ≤ t')
    (hlive : ttl ≤ 0 ∨ t' < t + seconds ttl) :
    ∃ c', c.set k v ttl t = some c' ∧ c'.WF ∧ c'.get k t' = v := by
  obtain ⟨c1, he, hset⟩ := set_some c k v ttl t hcap
  refine ⟨_, hset, set_wf c _ k v ttl t hwf hset, ?_⟩
  have hfind : find (assign c1.data k (scalar_entry v ttl t)) k
      = some ⟨.string_value v, t + seconds ttl, decide (ttl > 0)⟩ :=
    find_assign_self c1.data k _
  rw [get_scalar _ k v _ t' _ hfind]
  rcases hlive with h | h
  · have : ¬ ttl > 0 := by omega
    simp [this]
  · have : t + seconds ttl > t' := by omega
    simp [this]

/-- Witness of C1: a store of capacity 2, `set("k", "v", 5)` at tick 0 and `get("k")`
three ticks later. -/
theorem set_get_round_trip_witness :
    ∃ c', (Cache.empty 2).set "k" "v" 5 0 = some c' ∧ c'.WF ∧ c'.get "k" 3 = "v" :=
  set_get_round_trip (Cache.empty 2) "k" "v" 5 0 3 (by decide) (by decide) (by decide)
    (Or.inr (by decide))

/-- C2 (delete): `del(k)` returns true iff `k` was a key of the store; afterwards
`get(k)` is the empty string at every instant; the size is exactly one less when `k`
was present, and unchanged, with `false` returned, when `k` was absent. -/
theorem del_spec (c : Cache) (k : String) (hwf : c.WF) :
    ((c.del k).1 = true ↔ k ∈ c.keys) ∧
    (∀ now, (c.del k).2.get k now = "") ∧
    (k ∈ c.keys → (c.del k).2.size + 1 = c.size) ∧
    (k ∉ c.keys → (c.del k).2.size = c.size ∧ (c.del k).1 = false) := by
  have hget : ∀ now, (c.del k).2.get k now = "" := by
    intro now
    simp [del, get, find_erase_self]
  have hin : k ∈ c.keys → (c.del k).2.size + 1 = c.size :=
    fun h => length_erase_of_mem c.data k hwf h
  have hout : k ∉ c.keys → (c.del k).2.size = c.size ∧ (c.del k).1 = false := by
    intro h
    have he : erase c.data k = c.data := erase_of_not_mem c.data k h
    simp [del, size, he]
  refine ⟨⟨?_, ?_⟩, hget, hin, hout⟩
  · intro h
    by_contra hk
    rw [(hout hk).2] at h
    exact Bool.false_ne_true h
  · intro h
    have := hin h
    simp only [del, size] at this ⊢
    simp only [decide_eq_true_eq]
    omega

/-- Witness of C2: deleting the one key of a one-key store. -/
theorem del_spec_witness :
    (((Cache.empty 2).lpush "a" "x").del "a").1 = true ∧
    (((Cache.empty 2).lpush "a" "x").del "a").2.size + 1 = ((Cache.empty 2).lpush "a" "x").size :=
  have h := del_spec ((Cache.empty 2).lpush "a" "x") "a" (by decide)
  ⟨h.1.2 (by decide), h.2.2.1 (by decide)⟩

/-- C3, counterexample: on the empty store of capacity 3, `mset` of the pairs
`("a","1"), ("a","2")` evicts nothing, and `mget` on the keys `"a", "a"` returns
`"2", "2"`: position 0 does not hold the value `"1"` of pair 0. -/
theorem mset_mget_positional_counterexample :
    mset_no_eviction (Cache.empty 3) [("a", "1"), ("a", "2")] (fun _ => 0) = true ∧
    ∃ c', (Cache.empty 3).mset [("a", "1"), ("a", "2")] (fun _ => 0) = some c' ∧
      c'.mget ([("a", "1"), ("a", "2")].map Prod.fst) (fun _ => 0) = ["2", "2"] ∧
      c'.mget ([("a", "1"), ("a", "2")].map Prod.fst) (fun _ => 0)
        ≠ [("a", "1"), ("a", "2")].map Prod.snd := by
  refine ⟨by decide, _, rfl, by decide, by decide⟩

/-- C3, amended (mset then mget): when no `set` performed by `mset(pairs)` triggers an
eviction, `mset` succeeds and `mget` on the keys of the pairs, in order and at any clock
readings, returns one result per pair, the result at position `i` being the value of the
last pair of the sequence that has the key of pair `i`; when the keys are pairwise
distinct this is `pairs[i].value` at every position. -/
theorem mset_mget_last_value (c : Cache) (kvs : List (String × String)) (now now' : Nat → Int)
    (hno : mset_no_eviction c kvs now = true) :
    ∃ c', c.mset kvs now = some c' ∧
      (c'.mget (kvs.map Prod.fst) now').length = kvs.length ∧
      (∀ (i j : Nat) (hi : i < kvs.length) (hj : j < kvs.length),
        kvs[j].1 = kvs[i].1 →
        (∀ j1 (hj1 : j1 < kvs.length), j < j1 → kvs[j1].1 ≠ kvs[i].1) →
        (c'.mget (kvs.map Prod.fst) now')[i]? = some kvs[j].2) ∧
      ((kvs.map Prod.fst).Nodup → c'.mget (kvs.map Prod.fst) now' = kvs.map Prod.snd) := by
  obtain ⟨c', hm⟩ := mset_some c kvs now hno
  have hpos : ∀ (i j : Nat) (hi : i < kvs.length) (hj : j < kvs.length),
      kvs[j].1 = kvs[i].1 →
      (∀ j1 (hj1 : j1 < kvs.length), j < j1 → kvs[j1].1 ≠ kvs[i].1) →
      (c'.mget (kvs.map Prod.fst) now')[i]? = some kvs[j].2 := by
    intro i j hi hj hkey hlast
    rw [mget_getElem?, List.getElem?_map, List.getElem?_eq_getElem hi]
    simp only [Option.map_some']
    rw [← hkey]
    rw [mset_get_last c c' kvs now hno hm j hj (fun j1 hj1 hlt => by
      rw [hkey]; exact hlast j1 hj1 hlt)]
  refine ⟨c', hm, ?_, hpos, ?_⟩
  · rw [mget_length, List.length_map]
  · intro hnd
    apply List.ext_getElem?
    intro i
    by_cases hi : i < kvs.length
    · rw [hpos i i hi hi rfl ?_, List.getElem?_map, List.getElem?_eq_getElem hi]
      · rfl
      · intro j1 hj1 hlt heq
        have hb1 : j1 < (kvs.map Prod.fst).length := by simpa using hj1
        have hbi : i < (kvs.map Prod.fst).length := by simpa using hi
        have h1 : (kvs.map Prod.fst)[j1] = (kvs.map Prod.fst)[i] := by
          simpa using heq
        have := (List.Nodup.getElem_inj_iff hnd).1 h1
        omega
    · have h1 : (kvs.map Prod.snd).length ≤ i := by simp; omega
      have h2 : (c'.mget (kvs.map Prod.fst) now').length ≤ i := by
        rw [mget_length, List.length_map]; omega
      rw [List.getElem?_eq_none h1, List.getElem?_eq_none h2]

/-- Witness of C3 amended: three pairs, the first and third on the same key. -/
theorem mset_mget_last_value_witness :
    ∃ c', (Cache.empty 3).mset [("a", "1"), ("b", "2"), ("a", "3")] (fun _ => 0) = some c' ∧
      (c'.mget ([("a", "1"), ("b", "2"), ("a", "3")].map Prod.fst) (fun _ => 7))[0]?
        = some "3" :=
  have h := mset_mget_last_value (Cache.empty 3) [("a", "1"), ("b", "2"), ("a", "3")]
    (fun _ => 0) (fun _ => 7) (by decide)
  h.elim fun c' hc => ⟨c', hc.1, hc.2.2.1 0 2 (by decide) (by decide) (by decide) (by decide)⟩

/-- C4 (expiry visibility): for `ttl > 0`, `set(k, v, ttl)` at instant `t` is defined on
every store of capacity at least 1, and in the store it leaves, at every instant `t'`
at or after `t` plus `ttl` seconds, `get(k)` returns the empty string while `k` is still
a key of the store (`get` does not modify it: `keys()` contains `k` and `size()` counts
it), and after `cleanup_expired()` run at `t'` the key `k` is no longer in `keys()`. -/
theorem expiry_visibility (c : Cache) (k v : String) (ttl t : Int)
    (hwf : c.WF) (httl : 0 < ttl) :
    (1 ≤ c.max_size → ∃ c', c.set k v ttl t = some c') ∧
    ∀ c', c.set k v ttl t = some c' → ∀ t', t + seconds ttl ≤ t' →
      c'.get k t' = "" ∧ k ∈ c'.keys ∧ 1 ≤ c'.size ∧
      k ∉ (c'.cleanup_expired t').keys := by
  refine ⟨fun hcap => ?_, ?_⟩
  · obtain ⟨c1, _, hset⟩ := set_some c k v ttl t hcap
    exact ⟨_, hset⟩
  · intro c' hset t' ht'
    have hwf' : c'.WF := set_wf c c' k v ttl t hwf hset
    obtain ⟨c1, _, rfl⟩ := set_inv c c' k v ttl t hset
    have hfind : find (assign c1.data k (scalar_entry v ttl t)) k
        = some ⟨.string_value v, t + seconds ttl, decide (ttl > 0)⟩ :=
      find_assign_self c1.data k _
    have hkey : k ∈ (assign c1.data k (scalar_entry v ttl t)).map Prod.fst :=
      (mem_keys_assign c1.data k k _).2 (Or.inl rfl)
    refine ⟨?_, hkey, ?_, ?_⟩
    · rw [get_scalar _ k v _ t' _ hfind]
      have : ¬ t + seconds ttl > t' := by omega
      simp [httl, this]
    · have := List.length_pos_of_mem hkey
      simpa [size] using this
    · have hnone : find (Cache.cleanup_expired
          { c1 with data := assign c1.data k (scalar_entry v ttl t) } t').data k = none := by
        simp only [cleanup_expired]
        rw [find_filter _ _ k hwf', hfind]
        simp [httl, ht']
      exact (find_eq_none_iff _ k).1 hnone

/-- Witness of C4: `set("k", "v", 1)` at tick 0 on the empty store of capacity 2, read
and swept one second later. -/
theorem expiry_visibility_witness :
    ∃ c', (Cache.empty 2).set "k" "v" 1 0 = some c' ∧
      c'.get "k" 1000000000 = "" ∧ "k" ∈ c'.keys ∧
      "k" ∉ (c'.cleanup_expired 1000000000).keys :=
  have h := expiry_visibility (Cache.empty 2) "k" "v" 1 0 (by decide) (by decide)
  (h.1 (by decide)).elim fun c' hc =>
    have h2 := h.2 c' hc 1000000000 (by decide)
    ⟨c', hc, h2.1, h2.2.1, h2.2.2.2⟩

/-- C5 (sweep, exact effect): after `cleanup_expired()` run at `now`, a key holds an
entry iff it held that same entry (same payload, variant, expiry instant and marker)
before and the entry does not have both the expiry marker set and its expiry instant at
or before `now`; so exactly the marked entries with expiry `≤ now` are removed and all
others stay as they were.  The bound `max_size` is unchanged. -/
theorem cleanup_expired_exact (c : Cache) (now : Int) (hwf : c.WF) :
    (∀ k e, find (c.cleanup_expired now).data k = some e ↔
      (find c.data k = some e ∧ ¬ (e.has_expiry = true ∧ e.expiry ≤ now))) ∧
    (∀ k e, find c.data k = some e → e.has_expiry = true → e.expiry ≤ now →
      k ∉ (c.cleanup_expired now).keys) ∧
    (c.cleanup_expired now).max_size = c.max_size := by
  have hmain := find_cleanup_expired_iff c now hwf
  refine ⟨hmain, ?_, rfl⟩
  intro k e hf hm hle
  rw [keys, ← find_eq_none_iff]
  cases hc : find (c.cleanup_expired now).data k with
  | none => rfl
  | some e1 =>
    have := (hmain k e1).1 hc
    rw [hf] at this
    simp only [Option.some.injEq] at this
    obtain ⟨h1, h2⟩ := this
    subst h1
    exact absurd ⟨hm, hle⟩ h2

/-- Witness of C5: a store with an expired scalar, a live scalar and a list, swept at
tick 10; the live scalar `"b"` is kept as it was and the expired `"a"` is gone. -/
theorem cleanup_expired_exact_witness :
    (find ((Cache.mk [("a", ⟨.string_value "x", 5, true⟩), ("b", ⟨.string_value "y", 50, true⟩),
        ("l", ⟨.list_value ["z"], 0, false⟩)] 4).cleanup_expired 10).data "b"
      = some ⟨.string_value "y", 50, true⟩) ∧
    "a" ∉ ((Cache.mk [("a", ⟨.string_value "x", 5, true⟩), ("b", ⟨.string_value "y", 50, true⟩),
        ("l", ⟨.list_value ["z"], 0, false⟩)] 4).cleanup_expired 10).keys :=
  have h := cleanup_expired_exact (Cache.mk [("a", ⟨.string_value "x", 5, true⟩),
    ("b", ⟨.string_value "y", 50, true⟩), ("l", ⟨.list_value ["z"], 0, false⟩)] 4) 10
    (by decide)
  ⟨(h.1 "b" ⟨.string_value "y", 50, true⟩).2 ⟨by decide, by decide⟩,
    h.2.1 "a" ⟨.string_value "x", 5, true⟩ (by decide) (by decide) (by decide)⟩

/-- C6 (sweep, idempotence): running `cleanup_expired()` twice at the same instant
leaves the same store as running it once; and for `now1 ≤ now2`, an entry present after
the sweep at `now1` is removed by a following sweep at `now2` iff its expiry marker is
set and its expiry instant lies in the interval `(now1, now2]`, every other entry being
kept as it was. -/
theorem cleanup_expired_idempotent (c : Cache) (now1 now2 : Int) (hwf : c.WF)
    (_hle : now1 ≤ now2) :
    (c.cleanup_expired now1).cleanup_expired now1 = c.cleanup_expired now1 ∧
    ∀ k e, find (c.cleanup_expired now1).data k = some e →
      (k ∉ ((c.cleanup_expired now1).cleanup_expired now2).keys ↔
        (e.has_expiry = true ∧ now1 < e.expiry ∧ e.expiry ≤ now2)) ∧
      (k ∈ ((c.cleanup_expired now1).cleanup_expired now2).keys →
        find ((c.cleanup_expired now1).cleanup_expired now2).data k = some e) := by
  refine ⟨cleanup_expired_twice c now1, ?_⟩
  intro k e hf
  have hwf1 : (c.cleanup_expired now1).WF := cleanup_expired_wf c now1 hwf
  have h1 := (find_cleanup_expired_iff c now1 hwf k e).1 hf
  have h2 := find_cleanup_expired_iff (c.cleanup_expired now1) now2 hwf1 k
  have hnot1 : e.has_expiry = true → now1 < e.expiry := by
    intro hm
    by_contra hlt
    exact h1.2 ⟨hm, by omega⟩
  refine ⟨⟨?_, ?_⟩, ?_⟩
  · intro hk
    rw [keys, ← find_eq_none_iff] at hk
    have hne : ¬ (find (c.cleanup_expired now1).data k = some e ∧
        ¬ (e.has_expiry = true ∧ e.expiry ≤ now2)) := by
      intro h
      have := (h2 e).2 h
      rw [hk] at this
      exact Option.noConfusion this
    have hq : e.has_expiry = true ∧ e.expiry ≤ now2 := by
      by_contra hq
      exact hne ⟨hf, hq⟩
    exact ⟨hq.1, hnot1 hq.1, hq.2⟩
  · intro hq
    rw [keys, ← find_eq_none_iff]
    cases hc : find ((c.cleanup_expired now1).cleanup_expired now2).data k with
    | none => rfl
    | some e1 =>
      have h3 := (h2 e1).1 hc
      rw [hf] at h3
      simp only [Option.some.injEq] at h3
      obtain ⟨heq, hnq⟩ := h3
      subst heq
      exact absurd ⟨hq.1, hq.2.2⟩ hnq
  · intro hk
    rw [keys] at hk
    cases hc : find ((c.cleanup_expired now1).cleanup_expired now2).data k with
    | none => exact absurd ((find_eq_none_iff _ k).1 hc) (not_not.2 hk)
    | some e1 =>
      have h3 := (h2 e1).1 hc
      rw [hf] at h3
      simp only [Option.some.injEq] at h3
      rw [h3.1]

/-- Witness of C6: entries expiring at ticks 5, 20 and 50, swept at tick 10 and then at
tick 30; the second sweep removes `"b"` (expiry 20) and keeps `"d"` (expiry 50). -/
theorem cleanup_expired_idempotent_witness :
    "b" ∉ (((Cache.mk [("a", ⟨.string_value "x", 5, true⟩), ("b", ⟨.string_value "y", 20, true⟩),
        ("d", ⟨.string_value "z", 50, true⟩)] 4).cleanup_expired 10).cleanup_expired 30).keys ∧
    find (((Cache.mk [("a", ⟨.string_value "x", 5, true⟩), ("b", ⟨.string_value "y", 20, true⟩),
        ("d", ⟨.string_value "z", 50, true⟩)] 4).cleanup_expired 10).cleanup_expired 30).data "d"
      = some ⟨.string_value "z", 50, true⟩ :=
  have h := cleanup_expired_idempotent (Cache.mk [("a", ⟨.string_value "x", 5, true⟩),
    ("b", ⟨.string_value "y", 20, true⟩), ("d", ⟨.string_value "z", 50, true⟩)] 4) 10 30
    (by decide) (by decide)
  ⟨((h.2 "b" ⟨.string_value "y", 20, true⟩ (by decide)).1).2 (by decide),
    (h.2 "d" ⟨.string_value "z", 50, true⟩ (by decide)).2 (by decide)⟩

/-- C7 (capacity bound): for a capacity at least 1 and any `N`, starting from the empty
store and inserting `capacity + N` distinct keys with `set` (any values, ttls and clock
readings), every one of the `set` calls succeeds and leaves `size() ≤ capacity`: the
bound holds after each prefix of the calls. -/
theorem capacity_bound (capacity N : Nat) (ops : List (String × String × Int × Int))
    (hcap : 1 ≤ capacity) (_hlen : ops.length = capacity + N)
    (_hdistinct : (ops.map (fun op => op.1)).Nodup) (i : Nat) (_hi : i ≤ ops.length) :
    ∃ c', (Cache.empty capacity).set_each (ops.take i) = some c' ∧ c'.size ≤ capacity := by
  obtain ⟨c2, h2, _, _, hsize⟩ := set_each_bounded (Cache.empty capacity) (ops.take i)
    (wf_empty capacity) hcap (by simp [Cache.empty, size])
  exact ⟨c2, h2, hsize⟩

/-- Witness of C7: capacity 2 and `N = 1`, three distinct keys, after all three calls. -/
theorem capacity_bound_witness :
    ∃ c', (Cache.empty 2).set_each
        ([("a", "1", 0, 10), ("b", "2", 0, 20), ("d", "3", 0, 30)].take 3) = some c' ∧
      c'.size ≤ 2 :=
  capacity_bound 2 1 [("a", "1", 0, 10), ("b", "2", 0, 20), ("d", "3", 0, 30)]
    (by decide) (by decide) (by decide) 3 (by decide)

/-- C8 (eviction choice): on a store with capacity at least 1, when `size ≥ capacity`
the call `set(k, v, ttl)` first removes exactly one entry, the victim, whose expiry
instant is at most that of every entry present at that moment (whatever their variant
and expiry marker), and then inserts into what is left; when `size < capacity` the
eviction step leaves the store as it is, and `set` removes no key and changes no entry
under another key. -/
theorem eviction_choice (c : Cache) (k v : String) (ttl now : Int)
    (hwf : c.WF) (hcap : 1 ≤ c.max_size) :
    (c.max_size ≤ c.size →
      ∃ victim, victim ∈ c.data ∧
        (∀ p ∈ c.data, victim.2.expiry ≤ p.2.expiry) ∧
        c.evict_if_needed = some { c with data := erase c.data victim.1 } ∧
        (erase c.data victim.1).length + 1 = c.data.length ∧
        (∀ p, p ∈ erase c.data victim.1 ↔ p ∈ c.data ∧ p ≠ victim) ∧
        c.set k v ttl now = some
          { c with data := assign (erase c.data victim.1) k (scalar_entry v ttl now) }) ∧
    (c.size < c.max_size →
      c.evict_if_needed = some c ∧
      c.set k v ttl now = some { c with data := assign c.data k (scalar_entry v ttl now) } ∧
      (∀ key ∈ c.keys, key ∈ (assign c.data k (scalar_entry v ttl now)).map Prod.fst) ∧
      (∀ key, key ≠ k →
        find (assign c.data k (scalar_entry v ttl now)) key = find c.data key)) := by
  constructor
  · intro hfull
    obtain ⟨victim, hmem, hle, hev⟩ :=
      evict_if_needed_full c hfull (data_ne_nil_of_full c hcap hfull)
    refine ⟨victim, hmem, hle, hev, ?_, ?_, ?_⟩
    · exact length_erase_of_mem c.data victim.1 hwf (List.mem_map.2 ⟨victim, hmem, rfl⟩)
    · intro p
      rw [mem_erase]
      constructor
      · rintro ⟨hp, hne⟩
        exact ⟨hp, fun h => hne (by rw [h])⟩
      · rintro ⟨hp, hne⟩
        refine ⟨hp, fun hkey => hne ?_⟩
        have h1 := mem_find c.data p.1 p.2 hwf hp
        have h2 := mem_find c.data victim.1 victim.2 hwf hmem
        rw [hkey, h2] at h1
        simp only [Option.some.injEq] at h1
        exact Prod.ext hkey h1.symm
    · exact set_eq c _ k v ttl now hev
  · intro hroom
    refine ⟨evict_if_needed_room c hroom, set_room c k v ttl now hroom, ?_, ?_⟩
    · intro key hkey
      exact (mem_keys_assign c.data k key _).2 (Or.inr hkey)
    · intro key hne
      exact find_assign_ne c.data k key _ hne

/-- Witness of C8: a full store of capacity 2 whose entries have expiry ticks 7 and 0;
the entry with tick 0 is the one erased by the eviction step. -/
theorem eviction_choice_witness :
    ∃ victim, victim ∈ [("a", (⟨.string_value "x", 7, false⟩ : CacheEntry)),
        ("b", ⟨.list_value ["y"], 0, false⟩)] ∧
      (Cache.mk [("a", ⟨.string_value "x", 7, false⟩), ("b", ⟨.list_value ["y"], 0, false⟩)]
        2).evict_if_needed =
        some { data := erase [("a", ⟨.string_value "x", 7, false⟩),
          ("b", ⟨.list_value ["y"], 0, false⟩)] victim.1, max_size := 2 } :=
  have h := eviction_choice (Cache.mk [("a", ⟨.string_value "x", 7, false⟩),
    ("b", ⟨.list_value ["y"], 0, false⟩)] 2) "d" "v" 0 100 (by decide) (by decide)
  (h.1 (by decide)).elim fun victim hv => ⟨victim, hv.1, hv.2.2.1⟩

/-- C9, counterexample: a store of capacity 1 that three `lpush` calls on distinct keys
have taken to size 3; after `set("d", "v", 0)` the size is still 3, above the capacity. -/
theorem set_capacity_counterexample :
    ((((Cache.empty 1).lpush "a" "x").lpush "b" "y").lpush "c" "z").WF ∧
    1 ≤ ((((Cache.empty 1).lpush "a" "x").lpush "b" "y").lpush "c" "z").max_size ∧
    ∃ c', ((((Cache.empty 1).lpush "a" "x").lpush "b" "y").lpush "c" "z").set "d" "v" 0 100
        = some c' ∧
      c'.max_size = 1 ∧ c'.size = 3 ∧ c'.max_size < c'.size := by
  refine ⟨by decide, by decide, _, rfl, by decide, by decide, by decide⟩

/-- C9, amended (bound at scalar insertion): on every store with capacity at least 1,
lists included, `set(k, v, ttl)` succeeds and leaves a size that is at most the larger of
the size before the call and the capacity; so `size() ≤ capacity` holds right after
`set` whenever it held right before it. -/
theorem set_size_bound (c : Cache) (k v : String) (ttl now : Int)
    (hwf : c.WF) (hcap : 1 ≤ c.max_size) :
    ∃ c', c.set k v ttl now = some c' ∧ c'.max_size = c.max_size ∧
      c'.size ≤ max c.size c.max_size ∧
      (c.size ≤ c.max_size → c'.size ≤ c'.max_size) := by
  obtain ⟨c1, _, hset⟩ := set_some c k v ttl now hcap
  obtain ⟨hmax, hle⟩ := set_size_le c _ k v ttl now hwf hset
  refine ⟨_, hset, hmax, hle, ?_⟩
  intro hsize
  have hm : max c.size c.max_size = c.max_size := max_eq_right hsize
  rw [hm] at hle
  exact le_of_le_of_eq hle hmax.symm

/-- Witness of C9 amended: a full store of capacity 2 holding a list and a scalar. -/
theorem set_size_bound_witness :
    ∃ c', (Cache.mk [("l", ⟨.list_value ["y"], 0, false⟩), ("a", ⟨.string_value "x", 7, false⟩)]
        2).set "d" "v" 0 100 = some c' ∧ c'.size ≤ c'.max_size :=
  have h := set_size_bound (Cache.mk [("l", ⟨.list_value ["y"], 0, false⟩),
    ("a", ⟨.string_value "x", 7, false⟩)] 2) "d" "v" 0 100 (by decide) (by decide)
  h.elim fun c' hc => ⟨c', hc.1, hc.2.2.2 (by decide)⟩

/-- C10 (push semantics): when `k` holds a List with contents `old`, after `lpush(k, v)`
the entry at `k` is the List `v` followed by `old` and after `rpush(k, v)` the List `old`
followed by `v`, its expiry data untouched; when `k` is absent or holds a Scalar (`old`
empty), after either push the entry at `k` is the one-element List `[v]` with no expiry
marker (and expiry instant at the clock epoch). -/
theorem push_semantics (c : Cache) (k v : String) :
    (∀ old ex he, find c.data k = some ⟨.list_value old, ex, he⟩ →
      find (c.lpush k v).data k = some ⟨.list_value (v :: old), ex, he⟩ ∧
      find (c.rpush k v).data k = some ⟨.list_value (old ++ [v]), ex, he⟩) ∧
    ((find c.data k = none ∨ ∃ s ex he, find c.data k = some ⟨.string_value s, ex, he⟩) →
      find (c.lpush k v).data k = some ⟨.list_value [v], 0, false⟩ ∧
      find (c.rpush k v).data k = some ⟨.list_value [v], 0, false⟩) := by
  constructor
  · intro old ex he hf
    constructor
    · unfold lpush
      rw [hf]
      exact find_assign_self c.data k _
    · unfold rpush
      rw [hf]
      exact find_assign_self c.data k _
  · intro h
    have hl : c.lpush k v = { c with data := assign c.data k (list_entry v) } := by
      unfold lpush
      rcases h with h | ⟨s, ex, he, h⟩ <;> rw [h]
    have hr : c.rpush k v = { c with data := assign c.data k (list_entry v) } := by
      unfold rpush
      rcases h with h | ⟨s, ex, he, h⟩ <;> rw [h]
    rw [hl, hr]
    exact ⟨find_assign_self c.data k _, find_assign_self c.data k _⟩

/-- Witness of C10: pushing `"v"` on the list `"a"` at key `"k"`, from the left and
from the right, and on the absent key `"n"`. -/
theorem push_semantics_witness :
    (find ((Cache.mk [("k", ⟨.list_value ["a"], 0, false⟩)] 2).lpush "k" "v").data "k"
        = some ⟨.list_value ["v", "a"], 0, false⟩ ∧
      find ((Cache.mk [("k", ⟨.list_value ["a"], 0, false⟩)] 2).rpush "k" "v").data "k"
        = some ⟨.list_value ["a", "v"], 0, false⟩) ∧
    (find ((Cache.mk [("k", ⟨.list_value ["a"], 0, false⟩)] 2).lpush "n" "v").data "n"
        = some ⟨.list_value ["v"], 0, false⟩ ∧
      find ((Cache.mk [("k", ⟨.list_value ["a"], 0, false⟩)] 2).rpush "n" "v").data "n"
        = some ⟨.list_value ["v"], 0, false⟩) :=
  ⟨(push_semantics (Cache.mk [("k", ⟨.list_value ["a"], 0, false⟩)] 2) "k" "v").1
      ["a"] 0 false (by decide),
    (push_semantics (Cache.mk [("k", ⟨.list_value ["a"], 0, false⟩)] 2) "n" "v").2
      (Or.inl (by decide))⟩

/-- C11 (list round trip): on a store that does not hold `k`, after `rpush(k, x)` for
each `x` of a non-empty sequence `vs` in order, `lrange(k, 0, -1)` returns `vs` and
`llen(k)` is `|vs|`; then `|vs|` successive `lpop(k)` calls return the elements of `vs`
in order, and `|vs|` successive `rpop(k)` calls return them in reverse order; after `i`
pops `llen(k)` is `|vs| - i`; and after the last pop the key is gone: `get(k)` is the
empty string, `llen(k)` is 0 and `size()` is what it was before the first push. -/
theorem list_round_trip (c : Cache) (k : String) (vs : List String)
    (hwf : c.WF) (hk : k ∉ c.keys) (hvs : vs ≠ []) :
    (c.rpush_each k vs).lrange k 0 (-1) = some vs ∧
    (c.rpush_each k vs).llen k = vs.length ∧
    ((c.rpush_each k vs).lpop_n k vs.length).1 = vs ∧
    ((c.rpush_each k vs).rpop_n k vs.length).1 = vs.reverse ∧
    (∀ i, i ≤ vs.length →
      ((c.rpush_each k vs).lpop_n k i).2.llen k = vs.length - i ∧
      ((c.rpush_each k vs).rpop_n k i).2.llen k = vs.length - i) ∧
    ((∀ now, ((c.rpush_each k vs).lpop_n k vs.length).2.get k now = "") ∧
      ((c.rpush_each k vs).lpop_n k vs.length).2.llen k = 0 ∧
      ((c.rpush_each k vs).lpop_n k vs.length).2.size = c.size) ∧
    ((∀ now, ((c.rpush_each k vs).rpop_n k vs.length).2.get k now = "") ∧
      ((c.rpush_each k vs).rpop_n k vs.length).2.llen k = 0 ∧
      ((c.rpush_each k vs).rpop_n k vs.length).2.size = c.size) := by
  cases vs with
  | nil => exact absurd rfl hvs
  | cons x rest =>
    have hnone : find c.data k = none := (find_eq_none_iff c.data k).2 hk
    have hpush := rpush_of_not_list c k x (Or.inl hnone)
    have hf1 : find (assign c.data k (list_entry x)) k = some ⟨.list_value [x], 0, false⟩ :=
      find_assign_self c.data k _
    have hwf1 : Cache.WF { c with data := assign c.data k (list_entry x) } :=
      nodup_assign c.data k _ hwf
    obtain ⟨hwf2, hf2, hsize2⟩ := rpush_each_of_list k 0 false rest _ [x] hwf1 hf1
    have hstep : c.rpush_each k (x :: rest)
        = Cache.rpush_each { c with data := assign c.data k (list_entry x) } k rest := by
      simp only [rpush_each, hpush]
    rw [← hstep] at hwf2 hf2 hsize2
    have hf3 : find (c.rpush_each k (x :: rest)).data k
        = some ⟨.list_value (x :: rest), 0, false⟩ := by simpa using hf2
    have hsize3 : (c.rpush_each k (x :: rest)).size = c.size + 1 := by
      rw [hsize2]
      exact length_assign_of_not_mem c.data k _ hk
    have hl := lpop_n_spec k 0 false (x :: rest).length _ (x :: rest) hwf2 hf3 (le_refl _)
    have hr := rpop_n_spec k 0 false (x :: rest).length _ (x :: rest) hwf2 hf3 (le_refl _)
    obtain ⟨hl1, hl2, hl3⟩ := hl
    obtain ⟨hr1, hr2, hr3⟩ := hr
    obtain ⟨hl4, hl5⟩ := hl3 rfl hvs
    obtain ⟨hr4, hr5⟩ := hr3 rfl hvs
    refine ⟨?_, llen_of_list _ k _ 0 false hf3, ?_, ?_, ?_, ⟨?_, ?_, ?_⟩, ⟨?_, ?_, ?_⟩⟩
    · rw [(lrange_eq_copy_range _ k (x :: rest) 0 false 0 (-1) hf3 hvs).1]
      have h0 : slice_index (x :: rest).length 0 = 0 := by
        simp only [slice_index]
        split_ifs <;> omega
      have h1 : slice_index (x :: rest).length (-1) + 1 = (x :: rest).length := by
        simp only [slice_index, List.length_cons]
        split_ifs <;> omega
      rw [h0, h1]
      simp [copy_range]
    · rw [hl1]
      exact List.take_length _
    · rw [hr1, ← List.length_reverse (x :: rest)]
      exact List.take_length _
    · intro i hi
      exact ⟨(lpop_n_spec k 0 false i _ (x :: rest) hwf2 hf3 hi).2.1,
        (rpop_n_spec k 0 false i _ (x :: rest) hwf2 hf3 hi).2.1⟩
    · exact fun now => get_of_find_none _ k now hl4
    · exact llen_of_not_list _ k (Or.inl hl4)
    · omega
    · exact fun now => get_of_find_none _ k now hr4
    · exact llen_of_not_list _ k (Or.inl hr4)
    · omega

/-- Witness of C11: the sequence `"a", "b"` pushed on key `"k"` of a store holding the
scalar `"s"`. -/
theorem list_round_trip_witness :
    ((Cache.mk [("s", ⟨.string_value "x", 7, false⟩)] 4).rpush_each "k" ["a", "b"]).lrange
        "k" 0 (-1) = some ["a", "b"] ∧
    (((Cache.mk [("s", ⟨.string_value "x", 7, false⟩)] 4).rpush_each "k" ["a", "b"]).lpop_n
        "k" ["a", "b"].length).1 = ["a", "b"] ∧
    (((Cache.mk [("s", ⟨.string_value "x", 7, false⟩)] 4).rpush_each "k" ["a", "b"]).rpop_n
        "k" ["a", "b"].length).1 = ["a", "b"].reverse :=
  have h := list_round_trip (Cache.mk [("s", ⟨.string_value "x", 7, false⟩)] 4) "k" ["a", "b"]
    (by decide) (by decide) (by decide)
  ⟨h.1, h.2.2.1, h.2.2.2.1⟩

/-- C12 (lrange slicing): for a key `k` holding a non-empty List `l` of `n` elements and
all integers `start`, `stop`, with `s` and `e` the two indices after adding `n` to a
negative one and clamping into `[0, n - 1]`: whenever `s ≤ e`, `lrange(k, start, stop)`
returns the `e - s + 1` elements `l[s], ..., l[e]` in order. -/
theorem lrange_slice (c : Cache) (k : String) (l : List String) (ex : Int) (he : Bool)
    (start stop : Int) (hf : find c.data k = some ⟨.list_value l, ex, he⟩) (hne : l ≠ [])
    (hse : slice_index l.length start ≤ slice_index l.length stop) :
    ∃ res, c.lrange k start stop = some res ∧
      res = (l.drop (slice_index l.length start)).take
        (slice_index l.length stop - slice_index l.length start + 1) ∧
      res.length = slice_index l.length stop - slice_index l.length start + 1 ∧
      slice_index l.length stop < l.length ∧
      ∀ i, i ≤ slice_index l.length stop - slice_index l.length start →
        res[i]? = l[slice_index l.length start + i]? := by
  obtain ⟨hcopy, hs, hlt⟩ := lrange_eq_copy_range c k l ex he start stop hf hne
  refine ⟨_, ?_, rfl, ?_, hlt, ?_⟩
  · rw [hcopy]
    unfold copy_range
    rw [if_pos ⟨by omega, by omega⟩]
    congr 2
    omega
  · rw [List.length_take, List.length_drop]
    omega
  · intro i hi
    rw [List.getElem?_take_of_lt (by omega), List.getElem?_drop]

/-- Witness of C12: on the list `a, b, c, d, e`, both `lrange(k, -3, -1)` and
`lrange(k, 2, 10)` are `c, d, e`. -/
theorem lrange_slice_witness :
    (∃ res, ((Cache.empty 4).rpush_each "k" ["a", "b", "c", "d", "e"]).lrange "k" (-3) (-1)
        = some res ∧ res = ["c", "d", "e"]) ∧
    (∃ res, ((Cache.empty 4).rpush_each "k" ["a", "b", "c", "d", "e"]).lrange "k" 2 10
        = some res ∧ res = ["c", "d", "e"]) :=
  ⟨(lrange_slice ((Cache.empty 4).rpush_each "k" ["a", "b", "c", "d", "e"]) "k"
      ["a", "b", "c", "d", "e"] 0 false (-3) (-1) (by decide) (by decide) (by decide)).elim
      fun res hr => ⟨res, hr.1, hr.2.1⟩,
    (lrange_slice ((Cache.empty 4).rpush_each "k" ["a", "b", "c", "d", "e"]) "k"
      ["a", "b", "c", "d", "e"] 0 false 2 10 (by decide) (by decide) (by decide)).elim
      fun res hr => ⟨res, hr.1, hr.2.1⟩⟩

/-- C13, at the failing input: on the list `a, b, c, d, e` the call `lrange(k, 4, 1)`
has clamped indices 4 and 1, so its iterators are `std::next(begin, 4)` and
`std::next(begin, 2)`, which is not a valid range for `insert`: the call is undefined
and returns no empty sequence.  With clamped indices `s = e + 1`, as in
`lrange(k, 2, 1)`, the range is empty and the result is the empty sequence. -/
theorem lrange_inverted_undefined :
    slice_index 5 4 = 4 ∧ slice_index 5 1 = 1 ∧
    ((Cache.empty 4).rpush_each "k" ["a", "b", "c", "d", "e"]).lrange "k" 4 1 = none ∧
    ((Cache.empty 4).rpush_each "k" ["a", "b", "c", "d", "e"]).lrange "k" 2 1 = some [] := by
  refine ⟨by decide, by decide, by decide, by decide⟩

/-- C14 (no empty list is retained): in every store that a sequence of the public calls
`set`, `del`, `clear`, `mset`, `cleanup_expired`, `lpush`, `rpush`, `lpop`, `rpop`
produces from a freshly constructed store, every List entry has at least one element
(so `llen` of a List key is at least 1); and an `lpop` or `rpop` that takes the only
element of a list returns it and deletes the key. -/
theorem no_empty_list (c : Cache) (hr : c.Reachable) :
    (∀ p ∈ c.data, ∀ l, p.2.payload = .list_value l → 1 ≤ l.length) ∧
    (∀ k l ex he, find c.data k = some ⟨.list_value l, ex, he⟩ → 1 ≤ c.llen k) ∧
    (∀ k x ex he, find c.data k = some ⟨.list_value [x], ex, he⟩ →
      ((c.lpop k).1 = x ∧ k ∉ (c.lpop k).2.keys) ∧
      ((c.rpop k).1 = x ∧ k ∉ (c.rpop k).2.keys)) := by
  have hinv := reachable_inv c hr
  refine ⟨?_, ?_, ?_⟩
  · intro p hp l hl
    exact List.length_pos.2 (hinv.2 p hp l hl).1
  · intro k l ex he hf
    rw [llen_of_list c k l ex he hf]
    exact List.length_pos.2 (inv_find_list c k l ex he hinv hf).1
  · intro k x ex he hf
    have hnot : k ∉ (erase c.data k).map Prod.fst :=
      (find_eq_none_iff _ k).1 (find_erase_self c.data k)
    rw [lpop_single c k x ex he hf, rpop_single c k x ex he hf]
    exact ⟨⟨rfl, hnot⟩, ⟨rfl, hnot⟩⟩

/-- Witness of C14: the store left by `rpush(k, a)`, `rpush(k, b)`, `lpop(k)` on a fresh
store holds the one-element list `b` at `k`, and the next `lpop(k)` deletes the key. -/
theorem no_empty_list_witness :
    1 ≤ (Cache.mk [("k", ⟨.list_value ["b"], 0, false⟩)] 2).llen "k" ∧
    ((Cache.mk [("k", ⟨.list_value ["b"], 0, false⟩)] 2).lpop "k").1 = "b" ∧
    "k" ∉ ((Cache.mk [("k", ⟨.list_value ["b"], 0, false⟩)] 2).lpop "k").2.keys :=
  have h := no_empty_list (Cache.mk [("k", ⟨.list_value ["b"], 0, false⟩)] 2)
    ⟨2, [Op.rpush "k" "a", Op.rpush "k" "b", Op.lpop "k"], by decide⟩
  ⟨h.2.1 "k" ["b"] 0 false (by decide),
    (h.2.2 "k" "b" 0 false (by decide)).1.1, (h.2.2 "k" "b" 0 false (by decide)).1.2⟩

/-- C15 (silent type mismatch): on a key holding a Scalar, `lpop` and `rpop` return the
empty string and leave the store as it is, `lrange` returns the empty sequence for all
`start`, `stop`, and `llen` returns 0; the same holds for an absent key; and on a key
holding a List, `get` returns the empty string at every instant (`get` is `const`: a
function of the store that returns only the string). -/
theorem type_mismatch_silent (c : Cache) (k : String) :
    (∀ s ex he, find c.data k = some ⟨.string_value s, ex, he⟩ →
      c.lpop k = ("", c) ∧ c.rpop k = ("", c) ∧
      (∀ start stop, c.lrange k start stop = some []) ∧ c.llen k = 0) ∧
    (find c.data k = none →
      c.lpop k = ("", c) ∧ c.rpop k = ("", c) ∧
      (∀ start stop, c.lrange k start stop = some []) ∧ c.llen k = 0) ∧
    (∀ l ex he, find c.data k = some ⟨.list_value l, ex, he⟩ →
      ∀ now, c.get k now = "") := by
  refine ⟨?_, ?_, ?_⟩
  · intro s ex he hf
    have h : find c.data k = none ∨
        ∃ s ex he, find c.data k = some ⟨.string_value s, ex, he⟩ := Or.inr ⟨s, ex, he, hf⟩
    exact ⟨lpop_of_not_list c k h, rpop_of_not_list c k h,
      fun start stop => lrange_of_not_list c k start stop h, llen_of_not_list c k h⟩
  · intro hf
    have h : find c.data k = none ∨
        ∃ s ex he, find c.data k = some ⟨.string_value s, ex, he⟩ := Or.inl hf
    exact ⟨lpop_of_not_list c k h, rpop_of_not_list c k h,
      fun start stop => lrange_of_not_list c k start stop h, llen_of_not_list c k h⟩
  · intro l ex he hf now
    exact get_of_list c k l ex now he hf

/-- Witness of C15: a store with the scalar `"s"` and the list `"l"`. -/
theorem type_mismatch_silent_witness :
    ((Cache.mk [("s", ⟨.string_value "x", 7, false⟩), ("l", ⟨.list_value ["y"], 0, false⟩)]
        4).lpop "s" = ("", Cache.mk [("s", ⟨.string_value "x", 7, false⟩),
          ("l", ⟨.list_value ["y"], 0, false⟩)] 4)) ∧
    (Cache.mk [("s", ⟨.string_value "x", 7, false⟩), ("l", ⟨.list_value ["y"], 0, false⟩)]
        4).get "l" 100 = "" :=
  ⟨((type_mismatch_silent (Cache.mk [("s", ⟨.string_value "x", 7, false⟩),
      ("l", ⟨.list_value ["y"], 0, false⟩)] 4) "s").1 "x" 7 false (by decide)).1,
    (type_mismatch_silent (Cache.mk [("s", ⟨.string_value "x", 7, false⟩),
      ("l", ⟨.list_value ["y"], 0, false⟩)] 4) "l").2.2 ["y"] 0 false (by decide) 100⟩

/-- C16 (pushes run no capacity check): whatever the size of the store relative to its
capacity, `lpush(k, v)` and `rpush(k, v)` leave every entry under a key other than `k`
as it is, remove no key and leave `max_size` alone; when `k` is absent the size grows by
exactly one, so a push of a new key on a store with `size ≥ capacity` leaves
`size > capacity`. -/
theorem push_no_capacity_check (c : Cache) (k v : String) :
    (∀ k1, k1 ≠ k → find (c.lpush k v).data k1 = find c.data k1 ∧
      find (c.rpush k v).data k1 = find c.data k1) ∧
    (∀ k1 ∈ c.keys, k1 ∈ (c.lpush k v).keys ∧ k1 ∈ (c.rpush k v).keys) ∧
    ((c.lpush k v).max_size = c.max_size ∧ (c.rpush k v).max_size = c.max_size) ∧
    (k ∉ c.keys → (c.lpush k v).size = c.size + 1 ∧ (c.rpush k v).size = c.size + 1) ∧
    (k ∉ c.keys → c.max_size ≤ c.size →
      c.max_size < (c.lpush k v).size ∧ c.max_size < (c.rpush k v).size) := by
  have hl : ∃ e, c.lpush k v = { c with data := assign c.data k e } := by
    unfold lpush
    split <;> exact ⟨_, rfl⟩
  have hr : ∃ e, c.rpush k v = { c with data := assign c.data k e } := by
    unfold rpush
    split <;> exact ⟨_, rfl⟩
  obtain ⟨el, hl⟩ := hl
  obtain ⟨er, hr⟩ := hr
  rw [hl, hr]
  have hsize : k ∉ c.keys →
      Cache.size { c with data := assign c.data k el } = c.size + 1 ∧
      Cache.size { c with data := assign c.data k er } = c.size + 1 :=
    fun hk => ⟨length_assign_of_not_mem c.data k el hk, length_assign_of_not_mem c.data k er hk⟩
  refine ⟨?_, ?_, ⟨rfl, rfl⟩, hsize, ?_⟩
  · intro k1 hne
    exact ⟨find_assign_ne c.data k k1 el hne, find_assign_ne c.data k k1 er hne⟩
  · intro k1 hk1
    exact ⟨(mem_keys_assign c.data k k1 el).2 (Or.inr hk1),
      (mem_keys_assign c.data k k1 er).2 (Or.inr hk1)⟩
  · intro hk hfull
    obtain ⟨h1, h2⟩ := hsize hk
    simp only [size] at h1 h2 hfull ⊢
    omega

/-- Witness of C16: on a fresh store of capacity 1, a second push on a new key takes
the size to 2. -/
theorem push_no_capacity_check_witness :
    (((Cache.empty 1).lpush "a" "x").lpush "b" "y").size = ((Cache.empty 1).lpush "a" "x").size + 1 ∧
    ((Cache.empty 1).lpush "a" "x").max_size < (((Cache.empty 1).lpush "a" "x").lpush "b" "y").size :=
  have h := push_no_capacity_check ((Cache.empty 1).lpush "a" "x") "b" "y"
  ⟨(h.2.2.2.1 (by decide)).1, (h.2.2.2.2 (by decide) (by decide)).1⟩

/-- C17, counterexample: on a fresh store of capacity 2, `set("a", "x", -10)` at tick
5000000000 stores the scalar `"a"` with expiry tick -5000000000, and `lpush("l", "y")`
stores a list with expiry tick 0; the store is full and holds a List, and the eviction
of the next `set` removes the scalar `"a"`, the list staying in place. -/
theorem list_first_eviction_counterexample :
    run (Cache.empty 2) [Op.set "a" "x" (-10) 5000000000, Op.lpush "l" "y"]
      = some (Cache.mk [("a", ⟨.string_value "x", -5000000000, false⟩),
          ("l", ⟨.list_value ["y"], 0, false⟩)] 2) ∧
    (Cache.mk [("a", ⟨.string_value "x", -5000000000, false⟩),
        ("l", ⟨.list_value ["y"], 0, false⟩)] 2).max_size
      ≤ (Cache.mk [("a", ⟨.string_value "x", -5000000000, false⟩),
        ("l", ⟨.list_value ["y"], 0, false⟩)] 2).size ∧
    (Cache.mk [("a", ⟨.string_value "x", -5000000000, false⟩),
        ("l", ⟨.list_value ["y"], 0, false⟩)] 2).evict_if_needed
      = some (Cache.mk [("l", ⟨.list_value ["y"], 0, false⟩)] 2) ∧
    (Cache.mk [("a", ⟨.string_value "x", -5000000000, false⟩),
        ("l", ⟨.list_value ["y"], 0, false⟩)] 2).set "d" "v" 0 6000000000
      = some (Cache.mk [("l", ⟨.list_value ["y"], 0, false⟩),
          ("d", ⟨.string_value "v", 6000000000, false⟩)] 2) := by
  refine ⟨by decide, by decide, by decide, by decide⟩

/-- C17, amended (lists are evicted first): in a store produced by the public calls that
holds at least one List entry, has `size ≥ capacity` and whose Scalar entries all have an
expiry instant strictly after the clock epoch, the entry removed by the eviction that
`set(k, v, ttl)` triggers is a List entry. -/
theorem list_first_eviction (c : Cache) (k v : String) (ttl now : Int)
    (hr : c.Reachable) (hfull : c.max_size ≤ c.size)
    (hlist : ∃ p ∈ c.data, p.2.is_list = true)
    (hscalar : ∀ p ∈ c.data, p.2.is_list = false → 0 < p.2.expiry) :
    ∃ victim ∈ c.data, victim.2.is_list = true ∧
      c.evict_if_needed = some { c with data := erase c.data victim.1 } ∧
      c.set k v ttl now = some
        { c with data := assign (erase c.data victim.1) k (scalar_entry v ttl now) } := by
  have hinv := reachable_inv c hr
  obtain ⟨p, hp, hpl⟩ := hlist
  have hne : c.data ≠ [] := List.ne_nil_of_mem hp
  obtain ⟨victim, hmem, hle, hev⟩ := evict_if_needed_full c hfull hne
  refine ⟨victim, hmem, ?_, hev, set_eq c _ k v ttl now hev⟩
  obtain ⟨l, hl⟩ := (is_list_iff p.2).1 hpl
  have hp0 : p.2.expiry = 0 := (hinv.2 p hp l hl).2.2
  have hv := hle p hp
  cases hvl : victim.2.is_list with
  | true => rfl
  | false =>
    have := hscalar victim hmem hvl
    omega

/-- Witness of C17 amended: a scalar written with `ttl = 0` at a positive tick and a
list, in a full store of capacity 2. -/
theorem list_first_eviction_witness :
    ∃ victim ∈ (Cache.mk [("a", ⟨.string_value "x", 5000000000, false⟩),
        ("l", ⟨.list_value ["y"], 0, false⟩)] 2).data, victim.2.is_list = true ∧
      (Cache.mk [("a", ⟨.string_value "x", 5000000000, false⟩),
        ("l", ⟨.list_value ["y"], 0, false⟩)] 2).evict_if_needed
        = some { data := erase [("a", ⟨.string_value "x", 5000000000, false⟩),
            ("l", ⟨.list_value ["y"], 0, false⟩)] victim.1, max_size := 2 } :=
  have h := list_first_eviction (Cache.mk [("a", ⟨.string_value "x", 5000000000, false⟩),
    ("l", ⟨.list_value ["y"], 0, false⟩)] 2) "d" "v" 0 6000000000
    ⟨2, [Op.set "a" "x" 0 5000000000, Op.lpush "l" "y"], by decide⟩
    (by decide) ⟨("l", ⟨.list_value ["y"], 0, false⟩), by decide, by decide⟩ (by decide)
  h.elim fun victim hv => ⟨victim, hv.1, hv.2.1, hv.2.2.1⟩

/-- C18 (eviction is safe): with capacity at least 1, whenever the eviction condition
`size ≥ capacity` holds the map is non-empty, `std::min_element` returns an entry of the
map and the removal erases that entry, so `evict_if_needed` and `set` are always
defined; with capacity 0 and an empty map the condition holds, `min_element` returns the
end iterator (no victim) and the call is undefined. -/
theorem eviction_safe (c : Cache) (k v : String) (ttl now : Int) :
    (1 ≤ c.max_size → c.max_size ≤ c.size →
      c.data ≠ [] ∧ ∃ victim, min_element c.data = some victim ∧ victim ∈ c.data ∧
        c.evict_if_needed = some { c with data := erase c.data victim.1 }) ∧
    (1 ≤ c.max_size →
      (∃ c1, c.evict_if_needed = some c1) ∧ ∃ c2, c.set k v ttl now = some c2) ∧
    (c.max_size = 0 → c.data = [] →
      c.max_size ≤ c.size ∧ min_element c.data = none ∧
      c.evict_if_needed = none ∧ c.set k v ttl now = none) := by
  refine ⟨?_, ?_, ?_⟩
  · intro hcap hfull
    have hne := data_ne_nil_of_full c hcap hfull
    obtain ⟨victim, hmin, hmem, _⟩ := min_element_spec c.data hne
    refine ⟨hne, victim, hmin, hmem, ?_⟩
    have hge : c.data.length ≥ c.max_size := hfull
    unfold evict_if_needed
    rw [if_pos hge, hmin]
  · intro hcap
    obtain ⟨c1, he, hset⟩ := set_some c k v ttl now hcap
    exact ⟨⟨c1, he⟩, ⟨_, hset⟩⟩
  · intro h0 hd
    have hev : c.evict_if_needed = none := by
      unfold evict_if_needed
      rw [hd, h0]
      simp [min_element]
    refine ⟨?_, ?_, hev, ?_⟩
    · rw [h0]
      exact Nat.zero_le _
    · rw [hd]
      rfl
    · unfold set
      rw [hev]

/-- Witness of C18: a full store of capacity 1 has a victim; the empty store of
capacity 0 has none and `set` on it is undefined. -/
theorem eviction_safe_witness :
    (∃ victim, min_element (Cache.mk [("a", ⟨.string_value "x", 7, false⟩)] 1).data
        = some victim ∧ victim ∈ (Cache.mk [("a", ⟨.string_value "x", 7, false⟩)] 1).data) ∧
    (Cache.empty 0).set "d" "v" 0 100 = none :=
  ⟨((eviction_safe (Cache.mk [("a", ⟨.string_value "x", 7, false⟩)] 1) "d" "v" 0 100).1
      (by decide) (by decide)).2.elim fun victim hv => ⟨victim, hv.1, hv.2.1⟩,
    ((eviction_safe (Cache.empty 0) "d" "v" 0 100).2.2 (by decide) (by decide)).2.2.2⟩

/-- C19 (overwriting in a full store still evicts): on a store with
`size ≥ capacity ≥ 1` that holds the key `k`, `set(k, v, ttl)` at instant `now` first
removes an entry of least expiry instant, the victim, and succeeds; if the victim is a
key other than `k`, the victim is absent after the call and `size()` is one less than
before; if the victim is `k` itself, `size()` is unchanged; in both cases `get(k)`
returns `v` at the instant of the call and at every instant at which the new entry is
live (`ttl ≤ 0`, or before `now` plus `ttl` seconds). -/
theorem overwrite_evicts (c : Cache) (k v : String) (ttl now : Int)
    (hwf : c.WF) (hcap : 1 ≤ c.max_size) (hfull : c.max_size ≤ c.size) (hk : k ∈ c.keys) :
    ∃ victim ∈ c.data, (∀ p ∈ c.data, victim.2.expiry ≤ p.2.expiry) ∧
      c.evict_if_needed = some { c with data := erase c.data victim.1 } ∧
      ∃ c', c.set k v ttl now = some c' ∧
        (victim.1 ≠ k → victim.1 ∉ c'.keys ∧ c'.size + 1 = c.size) ∧
        (victim.1 = k → c'.size = c.size) ∧
        c'.get k now = v ∧
        (∀ t', ttl ≤ 0 ∨ t' < now + seconds ttl → c'.get k t' = v) := by
  obtain ⟨victim, hmem, hle, hev⟩ :=
    evict_if_needed_full c hfull (data_ne_nil_of_full c hcap hfull)
  have hvk : victim.1 ∈ c.data.map Prod.fst := List.mem_map.2 ⟨victim, hmem, rfl⟩
  have hlen := length_erase_of_mem c.data victim.1 hwf hvk
  have hfind : find (assign (erase c.data victim.1) k (scalar_entry v ttl now)) k
      = some ⟨.string_value v, now + seconds ttl, decide (ttl > 0)⟩ :=
    find_assign_self _ k _
  have hget : ∀ t', ttl ≤ 0 ∨ t' < now + seconds ttl →
      Cache.get { c with data := assign (erase c.data victim.1) k (scalar_entry v ttl now) }
        k t' = v := by
    intro t' hlive
    rw [get_scalar _ k v _ t' _ hfind]
    rcases hlive with h | h
    · have : ¬ ttl > 0 := by omega
      simp [this]
    · have : now + seconds ttl > t' := by omega
      simp [this]
  refine ⟨victim, hmem, hle, hev, _, set_eq c _ k v ttl now hev, ?_, ?_, ?_, hget⟩
  · intro hne
    have hk1 : k ∈ (erase c.data victim.1).map Prod.fst :=
      (mem_keys_erase c.data victim.1 k).2 ⟨hk, fun h => hne h.symm⟩
    refine ⟨?_, ?_⟩
    · intro hin
      rcases (mem_keys_assign _ k victim.1 _).1 hin with h | h
      · exact hne h
      · exact ((mem_keys_erase c.data victim.1 victim.1).1 h).2 rfl
    · simp only [size]
      rw [length_assign, if_pos hk1]
      exact hlen
  · intro heq
    have hk1 : k ∉ (erase c.data victim.1).map Prod.fst := by
      intro hin
      exact ((mem_keys_erase c.data victim.1 k).1 hin).2 heq.symm
    simp only [size]
    rw [length_assign, if_neg hk1]
    exact hlen
  · apply hget now
    by_cases h : ttl ≤ 0
    · exact Or.inl h
    · refine Or.inr ?_
      simp only [seconds]
      omega

/-- Witness of C19: overwriting `"b"` in a full store of capacity 2 whose entry of
least expiry is `"a"`. -/
theorem overwrite_evicts_witness :
    ∃ victim ∈ (Cache.mk [("a", ⟨.string_value "x", 3, false⟩),
        ("b", ⟨.string_value "y", 7, false⟩)] 2).data,
      ∃ c', (Cache.mk [("a", ⟨.string_value "x", 3, false⟩),
          ("b", ⟨.string_value "y", 7, false⟩)] 2).set "b" "v" 0 100 = some c' ∧
        c'.get "b" 100 = "v" :=
  have h := overwrite_evicts (Cache.mk [("a", ⟨.string_value "x", 3, false⟩),
    ("b", ⟨.string_value "y", 7, false⟩)] 2) "b" "v" 0 100
    (by decide) (by decide) (by decide) (by decide)
  h.elim fun victim hv => ⟨victim, hv.1, hv.2.2.2.elim fun c' hc => ⟨c', hc.1, hc.2.2.2.1⟩⟩

/-- C20 (the sweep is invisible to reads at the same instant): `get(k)` evaluated at
`now` returns the same string before and after `cleanup_expired()` run at `now`; a
Scalar entry is removed by that sweep iff its marker is set and its expiry instant is at
or before `now`, and `get` at `now` returns the empty string for exactly those; and in
every store produced by the public calls, `llen(k)` and `lrange(k, start, stop)` are the
same before and after the sweep, for every key `k`, List keys included. -/
theorem sweep_invisible (c : Cache) (now : Int) (k : String) (hwf : c.WF) :
    (c.cleanup_expired now).get k now = c.get k now ∧
    (∀ s ex he, find c.data k = some ⟨.string_value s, ex, he⟩ →
      (k ∉ (c.cleanup_expired now).keys ↔ (he = true ∧ ex ≤ now)) ∧
      ((he = true ∧ ex ≤ now) → c.get k now = "") ∧
      (¬ (he = true ∧ ex ≤ now) → c.get k now = s)) ∧
    (c.Reachable →
      (c.cleanup_expired now).llen k = c.llen k ∧
      ∀ start stop, (c.cleanup_expired now).lrange k start stop = c.lrange k start stop) := by
  refine ⟨get_cleanup_expired c now k hwf, ?_, ?_⟩
  · intro s ex he hf
    have hfc := find_cleanup_expired c now k hwf
    rw [hf] at hfc
    refine ⟨?_, ?_, ?_⟩
    · rw [keys, ← find_eq_none_iff, hfc]
      by_cases hq : he = true ∧ ex ≤ now
      · simp [hq.1, hq.2]
      · simp only [if_neg hq]
        simp [hq]
    · intro hq
      rw [get_scalar c k s ex now he hf]
      have hgt : ¬ ex > now := by omega
      simp [hq.1, hgt]
    · intro hq
      rw [get_scalar c k s ex now he hf]
      cases hh : he
      · simp
      · have hgt : ex > now := by
          by_contra hle
          exact hq ⟨hh, by omega⟩
        simp [hgt]
  · intro hr
    have hinv := reachable_inv c hr
    rcases find_cleanup_expired_of_inv c now k hinv with h | ⟨hn, hs⟩
    · exact ⟨llen_congr c _ k h, fun start stop => lrange_congr c _ k start stop h⟩
    · refine ⟨?_, ?_⟩
      · rw [llen_of_not_list _ k (Or.inl hn), llen_of_not_list c k (Or.inr hs)]
      · intro start stop
        rw [lrange_of_not_list _ k start stop (Or.inl hn),
          lrange_of_not_list c k start stop (Or.inr hs)]

/-- Witness of C20: a store, produced by a `set` with `ttl = 1` and two pushes, read and
swept after the scalar expired. -/
theorem sweep_invisible_witness :
    ((Cache.mk [("a", ⟨.string_value "x", 1000000000, true⟩),
        ("l", ⟨.list_value ["y", "z"], 0, false⟩)] 4).cleanup_expired 2000000000).get "a"
        2000000000
      = (Cache.mk [("a", ⟨.string_value "x", 1000000000, true⟩),
        ("l", ⟨.list_value ["y", "z"], 0, false⟩)] 4).get "a" 2000000000 ∧
    ((Cache.mk [("a", ⟨.string_value "x", 1000000000, true⟩),
        ("l", ⟨.list_value ["y", "z"], 0, false⟩)] 4).cleanup_expired 2000000000).llen "l"
      = (Cache.mk [("a", ⟨.string_value "x", 1000000000, true⟩),
        ("l", ⟨.list_value ["y", "z"], 0, false⟩)] 4).llen "l" :=
  ⟨(sweep_invisible (Cache.mk [("a", ⟨.string_value "x", 1000000000, true⟩),
      ("l", ⟨.list_value ["y", "z"], 0, false⟩)] 4) 2000000000 "a" (by decide)).1,
    ((sweep_invisible (Cache.mk [("a", ⟨.string_value "x", 1000000000, true⟩),
      ("l", ⟨.list_value ["y", "z"], 0, false⟩)] 4) 2000000000 "l" (by decide)).2.2
      ⟨4, [Op.set "a" "x" 1 0, Op.rpush "l" "y", Op.rpush "l" "z"], by decide⟩).1⟩

end Cache

end LunarDB
